import Mathlib

/-!
Shallow embedding of the `datafusion-functions-variant` repository
(crates `open-variant` and `arrow-open-variant`).

Byte buffers are modelled as `List Nat` with every element `< 256`.
Rust `usize` values are modelled as `Nat`; the places where the source
performs wrapping 64-bit arithmetic or a signed reinterpretation cast are
modelled explicitly (`signedToUsize`, the wrap in `find_loop`).
Rust panics (slice out of bounds, `unwrap`/`expect`, explicit `panic!`) are
modelled by the `.panicked` constructor of `RRes`; Rust `Err` returns by
`.err`.  Loops from the source that are not structurally recursive are
modelled with explicit fuel; `.fuelOut` marks fuel exhaustion and is never
claimed as a behaviour of the source.
-/

namespace OpenVariant

/-- Outcome of running a piece of Rust code: normal return, returned error
(`Err`), process panic, or model-side fuel exhaustion. -/
inductive RRes (α : Type) where
  | ok (val : α)
  | err
  | panicked
  | fuelOut
deriving DecidableEq, Repr

/-- Little-endian bytes of the low `w` bytes of `v` (the Rust
`(v as iN).to_le_bytes()` — two's complement truncation keeps exactly the
low `8*w` bits). -/
def natToLE : Nat → Nat → List Nat
  | 0, _ => []
  | w + 1, v => v % 256 :: natToLE w (v / 256)

/-- Read a little-endian unsigned value from a byte list. -/
def leToNat : List Nat → Nat
  | [] => 0
  | b :: bs => b + 256 * leToNat bs

/-- `read_le data off w`: the unsigned value of the `w` bytes at `off`. -/
def read_le (data : List Nat) (off w : Nat) : Nat :=
  leToNat ((data.drop off).take w)

/-- Reinterpret a `w`-byte unsigned value as the signed `iN` value and cast
it to `usize` (64-bit): values with the sign bit set are sign-extended
modulo `2^64`. -/
def signedToUsize (w n : Nat) : Nat :=
  if n < 2 ^ (8 * w - 1) then n else n + (2 ^ 64 - 2 ^ (8 * w))

/-- Largest value representable in a signed `w`-byte integer. -/
def signedMax (w : Nat) : Nat := 2 ^ (8 * w - 1) - 1

/-- Rust slice `l[start..stop]`; `none` models the bounds-check panic. -/
def slice? (l : List Nat) (start stop : Nat) : Option (List Nat) :=
  if start ≤ stop ∧ stop ≤ l.length then some ((l.drop start).take (stop - start))
  else none

/-- From `src/open-variant/src/utils.rs`: `determine_byte_width` — smallest
of 1/2/4/8 whose signed maximum is at least `max_value`. -/
def determine_byte_width (max_value : Nat) : Nat :=
  if max_value ≤ 2 ^ 7 - 1 then 1
  else if max_value ≤ 2 ^ 15 - 1 then 2
  else if max_value ≤ 2 ^ 31 - 1 then 4
  else 8

/-- From `src/open-variant/src/utils.rs`: `write_integer` — append `value`
cast to a signed `byte_width`-byte integer, little-endian. -/
def write_integer (buffer : List Nat) (value : Nat) (byte_width : Nat) : List Nat :=
  buffer ++ natToLE byte_width value

/-- Modelled from the spec: `width_for` (§4.A).  `get_offset_size` is called
by `src/open-variant/src/variant/write.rs` but its definition is not under
`src/`; per the spec it is the same smallest-signed-width computation as
`determine_byte_width`. -/
def get_offset_size (max_value : Nat) : Nat := determine_byte_width max_value

/-- Modelled from the spec: `write_le` (§4.A).  `push_offset` is called by
`src/open-variant/src/variant/write.rs` but its definition is not under
`src/`; per the spec it appends `w` little-endian bytes of the value cast to
the signed width, as `write_integer` does. -/
def push_offset (buffer : List Nat) (value : Nat) (w : Nat) : List Nat :=
  write_integer buffer value w

/-- Three-way byte-lexicographic comparison, mirroring Rust `str::cmp`
(UTF-8 byte order, a strict prefix is smaller). -/
def bytesCmp : List Nat → List Nat → Ordering
  | [], [] => .eq
  | [], _ :: _ => .lt
  | _ :: _, [] => .gt
  | a :: l1, b :: l2 =>
    if a < b then .lt else if b < a then .gt else bytesCmp l1 l2

/-- Insert a string into a sorted duplicate-free list, keeping it sorted and
duplicate-free (one step of the `BTreeSet` collection in `build_metadata`). -/
def insertSorted (s : List Nat) : List (List Nat) → List (List Nat)
  | [] => [s]
  | t :: rest =>
    match bytesCmp s t with
    | .lt => s :: t :: rest
    | .eq => t :: rest
    | .gt => t :: insertSorted s rest

/-- The `BTreeSet<&str>` built by `build_metadata`: the distinct members of
the input in ascending byte-lexicographic order. -/
def dedupSort (strings : List (List Nat)) : List (List Nat) :=
  strings.foldr insertSorted []

/-- Strict byte-lexicographic order (the `Ordering::Less` case of Rust
`str::cmp`). -/
def bytesLt (a b : List Nat) : Prop := bytesCmp a b = Ordering.lt

instance (a b : List Nat) : Decidable (bytesLt a b) := by
  unfold bytesLt; infer_instance

/-- Total byte length of a list of strings. -/
def sumLen (l : List (List Nat)) : Nat := (l.map List.length).sum

/-- The offsets region written by the loop in `build_metadata`: one running
total per string (the initial 0 offset is written separately). -/
def offsetBytes (w : Nat) : Nat → List (List Nat) → List Nat
  | _, [] => []
  | acc, s :: rest => natToLE w (acc + s.length) ++ offsetBytes w (acc + s.length) rest

/-- From `src/open-variant/src/metadata.rs`: `build_metadata`. -/
def build_metadata (string_iter : List (List Nat)) : List Nat :=
  let strings := dedupSort string_iter
  let total_buffer_size := (strings.map List.length).sum
  let offset_size := determine_byte_width total_buffer_size
  let version := 1
  let sorted_strings := 1
  let offset_size_minus_one := offset_size - 1
  let header := version + sorted_strings * 16 + (offset_size_minus_one * 64) % 256
  [header]
    ++ natToLE offset_size strings.length
    ++ natToLE offset_size 0
    ++ offsetBytes offset_size 0 strings
    ++ strings.flatten

/-- View into the metadata buffer (`MetadataRef` fields). -/
structure MetadataRef where
  header : Nat
  offset_size : Nat
  dictionary_len : Nat
  offsets : List Nat
  data : List Nat
deriving DecidableEq, Repr

/-- From `src/open-variant/src/metadata.rs`: `MetadataRef::read_integer` —
signed little-endian read then `as usize` cast.  (The Rust slice indexing
panics past the end of `data`; the claims only read in-bounds positions,
where `List.drop/take` agree with the slice.) -/
def MetadataRef.read_integer (data : List Nat) (offset : Nat) (byte_width : Nat) : Nat :=
  signedToUsize byte_width (read_le data offset byte_width)

/-- From `src/open-variant/src/metadata.rs`: `MetadataRef::new`.  (On a
buffer shorter than the computed regions the Rust slicing panics; the claims
only open buffers produced by `build_metadata`, which are long enough.) -/
def MetadataRef.new (data : List Nat) : MetadataRef :=
  let header := data.headD 0
  let offset_size := header / 64 % 4 + 1
  let dictionary_len := MetadataRef.read_integer data 1 offset_size
  let offsets_start := 1 + offset_size
  let offsets_end := offsets_start + offset_size * (dictionary_len + 1)
  { header := header
    offset_size := offset_size
    dictionary_len := dictionary_len
    offsets := (data.drop offsets_start).take (offsets_end - offsets_start)
    data := data.drop offsets_end }

def MetadataRef.version (m : MetadataRef) : Nat := m.header % 16

def MetadataRef.sorted_strings (m : MetadataRef) : Bool := m.header / 16 % 2 != 0

/-- From `src/open-variant/src/metadata.rs`: `MetadataRef::get_string`. -/
def MetadataRef.get_string (m : MetadataRef) (id : Nat) : Option (List Nat) :=
  if m.dictionary_len ≤ id then none
  else
    let offset := MetadataRef.read_integer m.offsets (id * m.offset_size) m.offset_size
    let next_offset :=
      MetadataRef.read_integer m.offsets ((id + 1) * m.offset_size) m.offset_size
    some ((m.data.drop offset).take (next_offset - offset))

/-- The binary-search loop of `MetadataRef::find_string`.  `left`/`right`
are `usize`; `right = mid - 1` wraps modulo `2^64` when `mid = 0` (release
semantics), and the `get_string(mid).unwrap()` panics when `get_string`
returns `None`. -/
def MetadataRef.find_loop (m : MetadataRef) (value : List Nat) :
    Nat → Nat → Nat → RRes (Option Nat)
  | 0, _, _ => .fuelOut
  | fuel + 1, left, right =>
    if left ≤ right then
      let mid := left + (right - left) / 2
      match m.get_string mid with
      | none => .panicked
      | some mid_str =>
        match bytesCmp mid_str value with
        | .lt => m.find_loop value fuel (mid + 1) right
        | .gt => m.find_loop value fuel left ((mid + 2 ^ 64 - 1) % 2 ^ 64)
        | .eq => .ok (some mid)
    else .ok none

/-- From `src/open-variant/src/metadata.rs`: `MetadataRef::find_string`.
The `assert!(sorted_strings)` is a panic when the flag is unset.  The
`while` loop is given `dictionary_len + 2` fuel, which the theorems below
never exhaust. -/
def MetadataRef.find_string (m : MetadataRef) (value : List Nat) : RRes (Option Nat) :=
  if m.sorted_strings then
    let dict_size := m.dictionary_len
    if dict_size = 0 then .ok none
    else m.find_loop value (dict_size + 2) 0 (dict_size - 1)
  else .panicked

/-- From `src/open-variant/src/variant/mod.rs`: `BasicType`. -/
inductive BasicType where
  | Primitive
  | ShortString
  | Object
  | Array
deriving DecidableEq, Repr

def BasicType.toNat : BasicType → Nat
  | .Primitive => 0
  | .ShortString => 1
  | .Object => 2
  | .Array => 3

/-- From `src/open-variant/src/variant/mod.rs`: `TryFrom<u8> for BasicType`. -/
def BasicType.tryFrom : Nat → Option BasicType
  | 0 => some .Primitive
  | 1 => some .ShortString
  | 2 => some .Object
  | 3 => some .Array
  | _ => none

/-- From `src/open-variant/src/variant/mod.rs`: `PrimitiveTypeId`. -/
inductive PrimitiveTypeId where
  | Null
  | BoolTrue
  | BoolFalse
  | Int8
  | Int16
  | Int32
  | Int64
  | Float32
  | Float64
  | Decimal4
  | Decimal8
  | Decimal16
  | Date32
  | TimestampMicro
  | TimestampMicroNTZ
  | Binary
  | String
  | BinaryFromDictionary
  | StringFromDictionary
deriving DecidableEq, Repr

def PrimitiveTypeId.toNat : PrimitiveTypeId → Nat
  | .Null => 0
  | .BoolTrue => 1
  | .BoolFalse => 2
  | .Int8 => 3
  | .Int16 => 4
  | .Int32 => 5
  | .Int64 => 6
  | .Float64 => 7
  | .Decimal4 => 8
  | .Decimal8 => 9
  | .Decimal16 => 10
  | .Date32 => 11
  | .TimestampMicro => 12
  | .TimestampMicroNTZ => 13
  | .Float32 => 14
  | .Binary => 15
  | .String => 16
  | .BinaryFromDictionary => 17
  | .StringFromDictionary => 18

/-- From `src/open-variant/src/variant/mod.rs`: `TryFrom<u8> for PrimitiveTypeId`. -/
def PrimitiveTypeId.tryFrom : Nat → Option PrimitiveTypeId
  | 0 => some .Null
  | 1 => some .BoolTrue
  | 2 => some .BoolFalse
  | 3 => some .Int8
  | 4 => some .Int16
  | 5 => some .Int32
  | 6 => some .Int64
  | 7 => some .Float64
  | 8 => some .Decimal4
  | 9 => some .Decimal8
  | 10 => some .Decimal16
  | 11 => some .Date32
  | 12 => some .TimestampMicro
  | 13 => some .TimestampMicroNTZ
  | 14 => some .Float32
  | 15 => some .Binary
  | 16 => some .String
  | 17 => some .BinaryFromDictionary
  | 18 => some .StringFromDictionary
  | _ => none

/-- Two's-complement bit pattern (low `bits` bits) of an integer. -/
def intToTwos (bits : Nat) (v : Int) : Nat := (v % ((2 : Int) ^ bits)).toNat

/-- Signed value of a two's-complement `bits`-bit pattern. -/
def twosToInt (bits : Nat) (n : Nat) : Int :=
  if n < 2 ^ (bits - 1) then (n : Int) else (n : Int) - (2 : Int) ^ bits

/-- From `src/open-variant/src/variant/write.rs`: `primitive_header`. -/
def primitive_header (primitive_type_id : PrimitiveTypeId) : Nat :=
  primitive_type_id.toNat * 4

/-- From `src/open-variant/src/variant/write.rs`: `write_bool`. -/
def write_bool (buffer : List Nat) (value : Bool) : List Nat :=
  buffer ++ [primitive_header (if value then .BoolTrue else .BoolFalse)]

/-- From `src/open-variant/src/variant/write.rs`: `write_i64`.  The `i64`
argument is modelled as an `Int` in `[-2^63, 2^63)`. -/
def write_i64 (buffer : List Nat) (value : Int) : List Nat :=
  buffer ++ primitive_header .Int64 :: natToLE 8 (intToTwos 64 value)

/-- From `src/open-variant/src/variant/write.rs`: `write_f64`.  The `f64`
is modelled by its 64-bit IEEE-754 bit pattern: the source only transports
the bytes of `to_le_bytes`, never computes with the float. -/
def write_f64 (buffer : List Nat) (value_bits : Nat) : List Nat :=
  buffer ++ primitive_header .Float64 :: natToLE 8 value_bits

/-- From `src/open-variant/src/variant/write.rs`: `write_decimal`.  The
`panic!` on scale > 38 is `.panicked`; the branches compare against
`i32::MAX`/`i64::MAX` exactly as the source (one-sided, strict). -/
def write_decimal (buffer : List Nat) (value : Int) (scale : Nat) : RRes (List Nat) :=
  if 38 < scale then .panicked
  else if value < (2 : Int) ^ 31 - 1 then
    .ok (buffer ++ primitive_header .Decimal4 :: scale :: natToLE 4 (intToTwos 32 value))
  else if value < (2 : Int) ^ 63 - 1 then
    .ok (buffer ++ primitive_header .Decimal8 :: scale :: natToLE 8 (intToTwos 64 value))
  else
    .ok (buffer ++ primitive_header .Decimal16 :: scale :: natToLE 16 (intToTwos 128 value))

/-- From `src/open-variant/src/variant/write.rs`: `write_string` — the
length is cast to `i32` before being written as 4 little-endian bytes. -/
def write_string (buffer : List Nat) (value : List Nat) : List Nat :=
  buffer ++ primitive_header .String :: natToLE 4 value.length ++ value

/-- Modelled from the spec: `write_null` (§3.2, §4.E).  `write_null` is
called by `src/arrow-open-variant/src/json.rs` but its definition is not
under `src/`; per the spec a Null primitive is the bare header byte for
primitive type id 0, which is the single byte 0. -/
def write_null (buffer : List Nat) : List Nat :=
  buffer ++ [primitive_header .Null]

/-- From `src/open-variant/src/values/read.rs`: `VariantRef::try_new`.  A
`VariantRef` is just the wrapped byte slice. -/
def VariantRef.try_new (data : List Nat) : RRes (List Nat) :=
  if data = [] then .err else .ok data

/-- From `src/open-variant/src/values/read.rs`: `VariantRef::basic_type`.
`data[0]` on an empty slice is a panic; the `expect("Invalid BasicType")`
can never fire because `header & 0b11 < 4`. -/
def basic_type (data : List Nat) : RRes BasicType :=
  match data with
  | [] => .panicked
  | b :: _ =>
    match BasicType.tryFrom (b % 4) with
    | some t => .ok t
    | none => .panicked

/-- From `src/open-variant/src/values/read.rs`: `VariantRef::primitive_type_id`.
The `expect("Invalid PrimitiveTypeId")` panics for header values above 18. -/
def primitive_type_id (data : List Nat) : RRes PrimitiveTypeId :=
  match data with
  | [] => .panicked
  | b :: _ =>
    match PrimitiveTypeId.tryFrom (b / 4) with
    | some t => .ok t
    | none => .panicked

/-- From `src/open-variant/src/values/read.rs`: `VariantRef::get_bool`
(`panic!("Not a boolean")` for other ids). -/
def get_bool (data : List Nat) : RRes Bool :=
  match primitive_type_id data with
  | .ok .BoolTrue => .ok true
  | .ok .BoolFalse => .ok false
  | _ => .panicked

/-- From `src/open-variant/src/values/read.rs`: `VariantRef::get_i64` —
panics unless the id is Int64; reads bytes 1..9 (panics when shorter). -/
def get_i64 (data : List Nat) : RRes Int :=
  match primitive_type_id data with
  | .ok .Int64 =>
    if data.length < 9 then .panicked else .ok (twosToInt 64 (read_le data 1 8))
  | _ => .panicked

/-- From `src/open-variant/src/values/read.rs`: `VariantRef::get_i128` —
panics unless the id is Decimal16; reads bytes 1..17. -/
def get_i128 (data : List Nat) : RRes Int :=
  match primitive_type_id data with
  | .ok .Decimal16 =>
    if data.length < 17 then .panicked else .ok (twosToInt 128 (read_le data 1 16))
  | _ => .panicked

/-- From `src/open-variant/src/values/read.rs`: `VariantRef::get_f64` —
panics unless the id is Float64; returns the 8-byte IEEE bit pattern. -/
def get_f64 (data : List Nat) : RRes Nat :=
  match primitive_type_id data with
  | .ok .Float64 =>
    if data.length < 9 then .panicked else .ok (read_le data 1 8)
  | _ => .panicked

/-- From `src/open-variant/src/values/read.rs`: `VariantRef::get_string` —
panics unless the id is String; the 4-byte length is read as `i32` and cast
to `usize`, then `data[5 .. 5+size]` is sliced (panicking out of bounds).
UTF-8 revalidation is omitted: the model stores raw bytes. -/
def get_string (data : List Nat) : RRes (List Nat) :=
  match primitive_type_id data with
  | .ok .String =>
    if data.length < 5 then .panicked
    else
      let size := signedToUsize 4 (read_le data 1 4)
      match slice? data 5 (5 + size) with
      | some s => .ok s
      | none => .panicked
  | .ok _ => .panicked
  | _ => .panicked

/-- View into an object value (`ObjectRef` fields). -/
structure ObjectRef where
  len : Nat
  field_id_width : Nat
  offset_width : Nat
  field_ids : List Nat
  offsets : List Nat
  values : List Nat
deriving DecidableEq, Repr

/-- From `src/open-variant/src/values/read.rs`: `ObjectRef::try_new`.
Wrong basic type is a returned error; every slice of a too-short buffer is
a panic.  The 1-byte (`i8`) and 4-byte (`i32`) element counts are read
signed and cast to `usize`. -/
def ObjectRef.try_new (data : List Nat) : RRes ObjectRef :=
  match basic_type data with
  | .ok BasicType.Object =>
    let header := data.headD 0 / 4
    let offset_width := header % 4 + 1
    let field_id_width := header / 4 % 4 + 1
    let is_large := header / 16 % 2
    let rest := data.drop 1
    let lenWidth := if is_large = 1 then 4 else 1
    if rest.length < lenWidth then .panicked
    else
      let len := signedToUsize lenWidth (read_le rest 0 lenWidth)
      let rest := rest.drop lenWidth
      let field_id_len := len * field_id_width
      match slice? rest 0 field_id_len with
      | none => .panicked
      | some field_ids =>
        let rest := rest.drop field_id_len
        let offset_len := (len + 1) * offset_width
        match slice? rest 0 offset_len with
        | none => .panicked
        | some offsets =>
          .ok { len := len
                field_id_width := field_id_width
                offset_width := offset_width
                field_ids := field_ids
                offsets := offsets
                values := rest.drop offset_len }
  | .ok _ => .err
  | _ => .panicked

/-- From `src/open-variant/src/values/read.rs`: `ObjectRef::get_field_id` —
an unsigned fixed-width little-endian read from the `field_ids` region. -/
def ObjectRef.get_field_id (o : ObjectRef) (idx : Nat) : Nat :=
  read_le o.field_ids (idx * o.field_id_width) o.field_id_width

/-- From `src/open-variant/src/values/read.rs`: `ObjectRef::get_offset` —
an unsigned fixed-width little-endian read from the `offsets` region. -/
def ObjectRef.get_offset (o : ObjectRef) (idx : Nat) : Nat :=
  read_le o.offsets (idx * o.offset_width) o.offset_width

/-- From `src/open-variant/src/values/read.rs`: `ObjectRef::get_value` —
the slice from the field's start offset to the final offset (the end of the
whole value region), panicking when out of bounds. -/
def ObjectRef.get_value (o : ObjectRef) (idx : Nat) : RRes (List Nat) :=
  match slice? o.values (o.get_offset idx) (o.get_offset o.len) with
  | some v => .ok v
  | none => .panicked

/-- The binary-search loop of `ObjectRef::get_field` (half-open interval,
`u64` arithmetic — no underflow is possible here). -/
def ObjectRef.find_loop (o : ObjectRef) (field_id : Nat) :
    Nat → Nat → Nat → RRes (Option (List Nat))
  | 0, _, _ => .fuelOut
  | fuel + 1, left, right =>
    if left < right then
      let mid := left + (right - left) / 2
      let mid_field_id := o.get_field_id mid
      if mid_field_id = field_id then
        match o.get_value mid with
        | .ok v => .ok (some v)
        | _ => .panicked
      else if mid_field_id < field_id then o.find_loop field_id fuel (mid + 1) right
      else o.find_loop field_id fuel left mid
    else .ok none

/-- From `src/open-variant/src/values/read.rs`: `ObjectRef::get_field`.
The `while` loop is given `len + 2` fuel, never exhausted in the theorems
below. -/
def ObjectRef.get_field (o : ObjectRef) (field_id : Nat) : RRes (Option (List Nat)) :=
  o.find_loop field_id (o.len + 2) 0 o.len

/-- View into an array value (`ArrayRef` fields). -/
structure ArrayRef where
  len : Nat
  offset_width : Nat
  offsets : List Nat
  values : List Nat
deriving DecidableEq, Repr

/-- From `src/open-variant/src/values/read.rs`: `ArrayRef::try_new`. -/
def ArrayRef.try_new (data : List Nat) : RRes ArrayRef :=
  match basic_type data with
  | .ok BasicType.Array =>
    let header := data.headD 0 / 4
    let is_large := header / 4 % 2 = 1
    let offset_width := header % 4 + 1
    let rest := data.drop 1
    let lenWidth := if is_large then 4 else 1
    if rest.length < lenWidth then .panicked
    else
      let len := signedToUsize lenWidth (read_le rest 0 lenWidth)
      let rest := rest.drop lenWidth
      let offset_len := (len + 1) * offset_width
      match slice? rest 0 offset_len with
      | none => .panicked
      | some offsets =>
        .ok { len := len
              offset_width := offset_width
              offsets := offsets
              values := rest.drop offset_len }
  | .ok _ => .err
  | _ => .panicked

/-- From `src/open-variant/src/values/read.rs`: `ArrayRef::get_offset`. -/
def ArrayRef.get_offset (a : ArrayRef) (idx : Nat) : Nat :=
  read_le a.offsets (idx * a.offset_width) a.offset_width

/-- From `src/open-variant/src/values/read.rs`: `ArrayRef::get_element` —
`None` past the end, otherwise the slice `values[offsets[i]..offsets[i+1]]`
(panicking when out of bounds). -/
def ArrayRef.get_element (a : ArrayRef) (index : Nat) : RRes (Option (List Nat)) :=
  if a.len ≤ index then .ok none
  else
    match slice? a.values (a.get_offset index) (a.get_offset (index + 1)) with
    | some v => .ok (some v)
    | none => .panicked

/-- State of `ArrayBuilder` (`src/open-variant/src/variant/write.rs`). -/
structure ArrayBuilder where
  buffer : List Nat
  field_offset_width : Nat
  tmp_buffer : List Nat
deriving DecidableEq, Repr

/-- From `src/open-variant/src/variant/write.rs`: `ArrayBuilder::new` —
writes the header, the element count and the initial 0 offset.  The offset
width is chosen from `num_elements` (not from the payload size). -/
def ArrayBuilder.new (buffer : List Nat) (num_elements : Nat) : ArrayBuilder :=
  let field_offset_width := get_offset_size num_elements
  let is_large := if 127 < num_elements then 1 else 0
  let num_elements_width := if is_large = 1 then 4 else 1
  let header := (is_large * 4 + (field_offset_width - 1)) * 4 + BasicType.Array.toNat
  let buffer := buffer ++ [header]
  let buffer := push_offset buffer num_elements num_elements_width
  let buffer := push_offset buffer 0 field_offset_width
  { buffer := buffer, field_offset_width := field_offset_width, tmp_buffer := [] }

/-- From `src/open-variant/src/variant/write.rs`: `ArrayBuilder::append_value`. -/
def ArrayBuilder.append_value (b : ArrayBuilder) (value : List Nat) : ArrayBuilder :=
  let tmp_buffer := b.tmp_buffer ++ value
  { b with
    tmp_buffer := tmp_buffer
    buffer := push_offset b.buffer tmp_buffer.length b.field_offset_width }

/-- From `src/open-variant/src/variant/write.rs`: `ArrayBuilder::finish`. -/
def ArrayBuilder.finish (b : ArrayBuilder) : List Nat :=
  b.buffer ++ b.tmp_buffer

/-- The build protocol of the claims: `ArrayBuilder::new` with the declared
count, one `append_value` per payload, then `finish`. -/
def buildArray (es : List (List Nat)) : List Nat :=
  (es.foldl ArrayBuilder.append_value (ArrayBuilder.new [] es.length)).finish

/-- State of `ObjectBuilder` (`src/open-variant/src/variant/write.rs`).
The metadata reference is passed to `append_value` explicitly. -/
structure ObjectBuilder where
  buffer : List Nat
  header_offset : Nat
  field_id_and_offsets : List (Nat × Nat)
  tmp_buffer : List Nat
deriving DecidableEq, Repr

/-- From `src/open-variant/src/variant/write.rs`: `ObjectBuilder::with_capacity`
— writes a partial header (field-offset width patched later; field-id width
taken from `num_elements`) and the element count. -/
def ObjectBuilder.with_capacity (buffer : List Nat) (num_elements : Nat) : ObjectBuilder :=
  let is_large := if 127 < num_elements then 1 else 0
  let num_elements_width := if 0 < is_large then 4 else 1
  let field_id_size := get_offset_size num_elements
  let header := (is_large * 16 + (field_id_size - 1) * 4) * 4 + BasicType.Object.toNat
  let header_offset := buffer.length
  let buffer := buffer ++ [header]
  let buffer := push_offset buffer num_elements num_elements_width
  { buffer := buffer
    header_offset := header_offset
    field_id_and_offsets := []
    tmp_buffer := [] }

/-- From `src/open-variant/src/variant/write.rs`: `ObjectBuilder::append` /
`append_value` — resolve the key in the metadata (an absent key is a
returned error; a key below the dictionary minimum panics inside
`find_string`), record `(field_id, scratch offset)`, append the bytes to
the scratch buffer. -/
def ObjectBuilder.append_value (meta : MetadataRef) (b : ObjectBuilder)
    (field_name : List Nat) (value : List Nat) : RRes ObjectBuilder :=
  match meta.find_string field_name with
  | .ok (some field_id) =>
    .ok { b with
          field_id_and_offsets := b.field_id_and_offsets ++ [(field_id, b.tmp_buffer.length)]
          tmp_buffer := b.tmp_buffer ++ value }
  | .ok none => .err
  | .panicked => .panicked
  | .err => .err
  | .fuelOut => .fuelOut

/-- Insertion of a pair into a list sorted by field id (model of
`sort_unstable_by_key`; the claims only sort lists with distinct keys,
where stability is irrelevant). -/
def insertPair (p : Nat × Nat) : List (Nat × Nat) → List (Nat × Nat)
  | [] => [p]
  | q :: rest => if p.1 ≤ q.1 then p :: q :: rest else q :: insertPair p rest

/-- Sort `(field_id, offset)` pairs by field id ascending. -/
def sortPairs : List (Nat × Nat) → List (Nat × Nat)
  | [] => []
  | p :: rest => insertPair p (sortPairs rest)

/-- From `src/open-variant/src/variant/write.rs`: `ObjectBuilder::finish` —
compute the offset width from the final scratch size and the field-id width
from the maximum field id, patch the header's offset-width bits, then emit
sorted field ids, offsets, the final offset and the scratch bytes. -/
def ObjectBuilder.finish (b : ObjectBuilder) : List Nat :=
  let final_offset := b.tmp_buffer.length
  let offset_width := get_offset_size final_offset
  let max_field_id := (b.field_id_and_offsets.map Prod.fst).foldr max 0
  let field_id_width := get_offset_size max_field_id
  let current_header := b.buffer.getD b.header_offset 0
  let buffer := b.buffer.set b.header_offset (current_header ||| (offset_width - 1) * 4)
  let sorted := sortPairs b.field_id_and_offsets
  let buffer := buffer ++ sorted.flatMap (fun p => natToLE field_id_width p.1)
  let buffer := buffer ++ sorted.flatMap (fun p => natToLE offset_width p.2)
  let buffer := push_offset buffer final_offset offset_width
  buffer ++ b.tmp_buffer

/-- The append loop of the claims: one `ObjectBuilder::append_value` per
`(key, value)` pair, stopping at the first error or panic. -/
def appendAll (meta : MetadataRef) :
    List (List Nat × List Nat) → ObjectBuilder → RRes ObjectBuilder
  | [], b => .ok b
  | (k, v) :: rest, b =>
    match b.append_value meta k v with
    | .ok b2 => appendAll meta rest b2
    | .err => .err
    | .panicked => .panicked
    | .fuelOut => .fuelOut

/-- The build protocol of the claims: `ObjectBuilder::with_capacity` with
the pair count, one `append_value` per pair, then `finish`. -/
def buildObject (meta : MetadataRef) (pairs : List (List Nat × List Nat)) : RRes (List Nat) :=
  match appendAll meta pairs (ObjectBuilder.with_capacity [] pairs.length) with
  | .ok b => .ok b.finish
  | .err => .err
  | .panicked => .panicked
  | .fuelOut => .fuelOut

/-- Scratch offsets recorded by consecutive appends of `values`, starting
at scratch position `acc`. -/
def offsetsFrom (acc : Nat) : List (List Nat) → List Nat
  | [] => []
  | v :: rest => acc :: offsetsFrom (acc + v.length) rest

/-- The field ids of an object in stored order. -/
def ObjectRef.storedFieldIds (o : ObjectRef) : List Nat :=
  (List.range o.len).map o.get_field_id

/-- The byte buffer `buildObject` produces when every key of `pairs`
resolves to the corresponding entry of `ids` (proved in `buildObject_ok`;
this is a proof-layer abbreviation, not a source function). -/
def objBytes (pairs : List (List Nat × List Nat)) (ids : List Nat) : List Nat :=
  (((if 127 < pairs.length then 1 else 0) * 16 +
      (get_offset_size pairs.length - 1) * 4) * 4 + 2 +
      (get_offset_size (sumLen (pairs.map Prod.snd)) - 1) * 4) ::
    (natToLE (if 127 < pairs.length then 4 else 1) pairs.length ++
      ((sortPairs (ids.zip (offsetsFrom 0 (pairs.map Prod.snd)))).flatMap
          (fun p => natToLE (get_offset_size (ids.foldr max 0)) p.1) ++
        ((sortPairs (ids.zip (offsetsFrom 0 (pairs.map Prod.snd)))).flatMap
            (fun p => natToLE (get_offset_size (sumLen (pairs.map Prod.snd))) p.2) ++
          (natToLE (get_offset_size (sumLen (pairs.map Prod.snd)))
              (sumLen (pairs.map Prod.snd)) ++
            (pairs.map Prod.snd).flatten))))

/-- The `ObjectRef` view that opening `objBytes` yields (proved in
`object_parse`; a proof-layer abbreviation, not a source function). -/
def objParsed (pairs : List (List Nat × List Nat)) (ids : List Nat) : ObjectRef :=
  { len := pairs.length
    field_id_width := get_offset_size pairs.length
    offset_width := get_offset_size (sumLen (pairs.map Prod.snd))
    field_ids := (sortPairs (ids.zip (offsetsFrom 0 (pairs.map Prod.snd)))).flatMap
      (fun p => natToLE (get_offset_size (ids.foldr max 0)) p.1)
    offsets := (sortPairs (ids.zip (offsetsFrom 0 (pairs.map Prod.snd)))).flatMap
        (fun p => natToLE (get_offset_size (sumLen (pairs.map Prod.snd))) p.2) ++
      natToLE (get_offset_size (sumLen (pairs.map Prod.snd)))
        (sumLen (pairs.map Prod.snd))
    values := (pairs.map Prod.snd).flatten }

/-- The `jiter::JsonValue` sum as consumed by
`src/arrow-open-variant/src/json.rs`: floats are carried as their 64-bit
bit pattern, strings and keys as byte lists. -/
inductive Json where
  | null
  | bool (b : Bool)
  | int (v : Int)
  | bigint (v : Int)
  | float (bits : Nat)
  | str (s : List Nat)
  | arr (elems : List Json)
  | obj (fields : List (List Nat × Json))

mutual

/-- From `src/arrow-open-variant/src/json.rs`: `convert_value` — encode one
JSON value onto `buffer`.  `BigInt` values outside `i128` are a returned
`ComputeError`; object keys are resolved through the metadata. -/
def convert_value (meta : MetadataRef) (json : Json) (buffer : List Nat) : RRes (List Nat) :=
  match json with
  | .null => .ok (write_null buffer)
  | .bool b => .ok (write_bool buffer b)
  | .int v => .ok (write_i64 buffer v)
  | .bigint v =>
    if v < -((2 : Int) ^ 127) ∨ (2 : Int) ^ 127 ≤ v then .err
    else write_decimal buffer v 0
  | .float bits => .ok (write_f64 buffer bits)
  | .str s => .ok (write_string buffer s)
  | .arr elems => convert_array meta elems (ArrayBuilder.new buffer elems.length)
  | .obj fields => convert_object meta fields (ObjectBuilder.with_capacity buffer fields.length)

/-- The `for value in array.iter()` loop of `convert_value` for arrays:
each element is encoded into a fresh scratch then appended. -/
def convert_array (meta : MetadataRef) (elems : List Json) (b : ArrayBuilder) : RRes (List Nat) :=
  match elems with
  | [] => .ok b.finish
  | j :: rest =>
    match convert_value meta j [] with
    | .ok bytes => convert_array meta rest (b.append_value bytes)
    | .err => .err
    | .panicked => .panicked
    | .fuelOut => .fuelOut

/-- The `for (key, value) in object.iter()` loop of `convert_value` for
objects. -/
def convert_object (meta : MetadataRef) (fields : List (List Nat × Json)) (b : ObjectBuilder) :
    RRes (List Nat) :=
  match fields with
  | [] => .ok b.finish
  | (key, j) :: rest =>
    match convert_value meta j [] with
    | .ok bytes =>
      match b.append_value meta key bytes with
      | .ok b2 => convert_object meta rest b2
      | .err => .err
      | .panicked => .panicked
      | .fuelOut => .fuelOut
    | .err => .err
    | .panicked => .panicked
    | .fuelOut => .fuelOut

end

/-- From `src/arrow-open-variant/src/json.rs`: `values_from_json` — one
output entry per row; invalid (null) input rows become null entries without
conversion; converted rows whose bytes are exactly the single Null
primitive byte `[0]` are stored as null entries, all others as values. -/
def values_from_json (meta : MetadataRef) :
    List Json → List Bool → RRes (List (Option (List Nat)))
  | [], _ => .ok []
  | j :: rest, valids =>
    let valid := valids.headD true
    if valid then
      match convert_value meta j [] with
      | .ok bytes =>
        match values_from_json meta rest valids.tail with
        | .ok out => .ok ((if bytes = [0] then none else some bytes) :: out)
        | .err => .err
        | .panicked => .panicked
        | .fuelOut => .fuelOut
      | .err => .err
      | .panicked => .panicked
      | .fuelOut => .fuelOut
    else
      match values_from_json meta rest valids.tail with
      | .ok out => .ok (none :: out)
      | .err => .err
      | .panicked => .panicked
      | .fuelOut => .fuelOut

/-! ### Byte-level lemmas -/

theorem natToLE_length (w v : Nat) : (natToLE w v).length = w := by
  induction w generalizing v with
  | zero => rfl
  | succ k ih => simp [natToLE, ih]

theorem natToLE_mem_lt (w v : Nat) : ∀ b ∈ natToLE w v, b < 256 := by
  induction w generalizing v with
  | zero => intro b hb; simp [natToLE] at hb
  | succ k ih =>
    intro b hb
    simp only [natToLE, List.mem_cons] at hb
    rcases hb with h | h
    · omega
    · exact ih _ b h

theorem leToNat_natToLE (w v : Nat) : leToNat (natToLE w v) = v % 2 ^ (8 * w) := by
  induction w generalizing v with
  | zero => simp [natToLE, leToNat, Nat.mod_one]
  | succ k ih =>
    have hpow : 2 ^ (8 * (k + 1)) = 256 * 2 ^ (8 * k) := by
      rw [Nat.mul_succ, Nat.pow_add]; ring
    rw [natToLE, leToNat, ih, hpow, Nat.mod_mul]

theorem read_le_append (pre data : List Nat) (off w : Nat) :
    read_le (pre ++ data) (pre.length + off) w = read_le data off w := by
  simp [read_le, List.drop_append]

theorem read_le_zero_append (enc rest : List Nat) (w : Nat) (hw : enc.length = w) :
    read_le (enc ++ rest) 0 w = leToNat enc := by
  simp [read_le, ← hw, List.take_left]

theorem read_le_natToLE (w v : Nat) (rest : List Nat) :
    read_le (natToLE w v ++ rest) 0 w = v % 2 ^ (8 * w) := by
  rw [read_le_zero_append _ _ _ (natToLE_length w v), leToNat_natToLE]

theorem signedToUsize_small {w n : Nat} (h : n < 2 ^ (8 * w - 1)) :
    signedToUsize w n = n := by
  simp [signedToUsize, h]

theorem signedMax_lt_pow {w : Nat} (hw : 0 < w) : signedMax w < 2 ^ (8 * w) := by
  have h1 : 2 ^ (8 * w - 1) ≤ 2 ^ (8 * w) :=
    Nat.pow_le_pow_right (by norm_num) (by omega)
  have h2 : 0 < 2 ^ (8 * w - 1) := Nat.pos_pow_of_pos _ (by norm_num)
  simp only [signedMax]
  omega

theorem read_integer_natToLE {w v : Nat} (hw : 0 < w) (h : v ≤ signedMax w)
    (rest : List Nat) :
    MetadataRef.read_integer (natToLE w v ++ rest) 0 w = v := by
  have hlt : v < 2 ^ (8 * w) := lt_of_le_of_lt h (signedMax_lt_pow hw)
  rw [MetadataRef.read_integer, read_le_natToLE, Nat.mod_eq_of_lt hlt]
  refine signedToUsize_small ?_
  have hp : 0 < 2 ^ (8 * w - 1) := Nat.pos_pow_of_pos _ (by norm_num)
  simp only [signedMax] at h
  omega

theorem read_integer_append (pre data : List Nat) (off w : Nat) :
    MetadataRef.read_integer (pre ++ data) (pre.length + off) w =
      MetadataRef.read_integer data off w := by
  simp [MetadataRef.read_integer, read_le_append]

theorem determine_byte_width_cases (n : Nat) :
    determine_byte_width n = 1 ∨ determine_byte_width n = 2 ∨
      determine_byte_width n = 4 ∨ determine_byte_width n = 8 := by
  unfold determine_byte_width
  split
  · left; rfl
  · split
    · right; left; rfl
    · split
      · right; right; left; rfl
      · right; right; right; rfl

theorem determine_byte_width_pos (n : Nat) : 0 < determine_byte_width n := by
  rcases determine_byte_width_cases n with h | h | h | h <;> omega

theorem le_signedMax_determine {n : Nat} (h : n ≤ 2 ^ 63 - 1) :
    n ≤ signedMax (determine_byte_width n) := by
  unfold determine_byte_width
  split
  · norm_num [signedMax]; omega
  · split
    · norm_num [signedMax]; omega
    · split
      · norm_num [signedMax]; omega
      · norm_num [signedMax] at h ⊢; omega

/-! ### Byte-string comparison and the sorted dictionary -/

theorem bytesCmp_eq_iff (a b : List Nat) : bytesCmp a b = Ordering.eq ↔ a = b := by
  induction a generalizing b with
  | nil => cases b <;> simp [bytesCmp]
  | cons x xs ih =>
    cases b with
    | nil => simp [bytesCmp]
    | cons y ys =>
      simp only [bytesCmp]
      split
      · rename_i h
        constructor
        · intro h2; exact absurd h2 (by decide)
        · intro h2; injection h2 with h3 _; omega
      · split
        · rename_i h1 h2
          constructor
          · intro h3; exact absurd h3 (by decide)
          · intro h3; injection h3 with h4 _; omega
        · rename_i h1 h2
          have hxy : x = y := by omega
          subst hxy
          simp [ih]

theorem bytesCmp_self (a : List Nat) : bytesCmp a a = Ordering.eq :=
  (bytesCmp_eq_iff a a).mpr rfl

theorem bytesCmp_swap (a b : List Nat) : bytesCmp b a = (bytesCmp a b).swap := by
  induction a generalizing b with
  | nil => cases b <;> simp [bytesCmp, Ordering.swap]
  | cons x xs ih =>
    cases b with
    | nil => simp [bytesCmp, Ordering.swap]
    | cons y ys =>
      simp only [bytesCmp]
      rcases Nat.lt_trichotomy x y with h | h | h
      · rw [if_neg (Nat.lt_asymm h), if_pos h, if_pos h]; rfl
      · subst h
        rw [if_neg (lt_irrefl x), if_neg (lt_irrefl x), if_neg (lt_irrefl x),
          if_neg (lt_irrefl x)]
        exact ih ys
      · rw [if_pos h, if_neg (Nat.lt_asymm h), if_pos h]; rfl

theorem bytesLt_trans {a b c : List Nat} (h1 : bytesLt a b) (h2 : bytesLt b c) :
    bytesLt a c := by
  unfold bytesLt at *
  induction a generalizing b c with
  | nil =>
    cases b with
    | nil => exact absurd h1 (by simp [bytesCmp])
    | cons y ys =>
      cases c with
      | nil => exact absurd h2 (by simp [bytesCmp])
      | cons z zs => simp [bytesCmp]
  | cons x xs ih =>
    cases b with
    | nil => exact absurd h1 (by simp [bytesCmp])
    | cons y ys =>
      cases c with
      | nil => exact absurd h2 (by simp [bytesCmp])
      | cons z zs =>
        simp only [bytesCmp] at h1 h2 ⊢
        by_cases hxy : x < y
        · by_cases hyz : y < z
          · rw [if_pos (by omega)]
          · rw [if_neg hyz] at h2
            by_cases hzy : z < y
            · rw [if_pos hzy] at h2; exact absurd h2 (by decide)
            · rw [if_pos (by omega)]
        · rw [if_neg hxy] at h1
          by_cases hyx : y < x
          · rw [if_pos hyx] at h1; exact absurd h1 (by decide)
          · rw [if_neg hyx] at h1
            have hxy2 : x = y := by omega
            subst hxy2
            by_cases hyz : x < z
            · rw [if_pos hyz]
            · rw [if_neg hyz] at h2 ⊢
              by_cases hzy : z < x
              · rw [if_pos hzy] at h2; exact absurd h2 (by decide)
              · rw [if_neg hzy] at h2 ⊢
                exact ih h1 h2

theorem bytesLt_irrefl (a : List Nat) : ¬ bytesLt a a := by
  unfold bytesLt
  rw [bytesCmp_self]
  decide

theorem bytesLt_of_gt {a b : List Nat} (h : bytesCmp a b = Ordering.gt) : bytesLt b a := by
  unfold bytesLt
  rw [bytesCmp_swap, h]
  rfl

theorem bytesLt_ne {a b : List Nat} (h : bytesLt a b) : a ≠ b := by
  intro hab
  subst hab
  exact bytesLt_irrefl a h

theorem insertSorted_mem (s : List Nat) (l : List (List Nat)) (x : List Nat) :
    x ∈ insertSorted s l ↔ x = s ∨ x ∈ l := by
  induction l with
  | nil => simp [insertSorted]
  | cons t rest ih =>
    simp only [insertSorted]
    cases hc : bytesCmp s t with
    | lt => exact List.mem_cons
    | eq =>
      have hst : s = t := (bytesCmp_eq_iff s t).mp hc
      subst hst
      constructor
      · exact Or.inr
      · rintro (rfl | h)
        · exact List.mem_cons_self _ _
        · exact h
    | gt =>
      simp only [List.mem_cons, ih]
      tauto

theorem insertSorted_pairwise (s : List Nat) (l : List (List Nat))
    (h : List.Pairwise bytesLt l) : List.Pairwise bytesLt (insertSorted s l) := by
  induction l with
  | nil => simp [insertSorted]
  | cons t rest ih =>
    simp only [insertSorted]
    cases hc : bytesCmp s t with
    | lt =>
      refine List.Pairwise.cons ?_ h
      intro y hy
      rcases List.mem_cons.mp hy with rfl | hy2
      · exact hc
      · exact bytesLt_trans hc (List.rel_of_pairwise_cons h hy2)
    | eq => exact h
    | gt =>
      refine List.Pairwise.cons ?_ (ih (List.Pairwise.of_cons h))
      intro y hy
      rcases (insertSorted_mem s rest y).mp hy with rfl | hy2
      · exact bytesLt_of_gt hc
      · exact List.rel_of_pairwise_cons h hy2

theorem dedupSort_pairwise (l : List (List Nat)) : List.Pairwise bytesLt (dedupSort l) := by
  induction l with
  | nil => simp [dedupSort]
  | cons s rest ih => exact insertSorted_pairwise s _ ih

theorem dedupSort_mem (l : List (List Nat)) (x : List Nat) :
    x ∈ dedupSort l ↔ x ∈ l := by
  induction l with
  | nil => simp [dedupSort]
  | cons s rest ih =>
    show x ∈ insertSorted s (dedupSort rest) ↔ _
    rw [insertSorted_mem, ih]
    simp [List.mem_cons]

theorem dedupSort_get_lt (l : List (List Nat)) {i j : Nat}
    (hi : i < (dedupSort l).length) (hj : j < (dedupSort l).length) (hij : i < j) :
    bytesLt ((dedupSort l).get ⟨i, hi⟩) ((dedupSort l).get ⟨j, hj⟩) :=
  List.pairwise_iff_get.mp (dedupSort_pairwise l) ⟨i, hi⟩ ⟨j, hj⟩ hij

theorem dedupSort_get_inj (l : List (List Nat)) {i j : Nat}
    (hi : i < (dedupSort l).length) (hj : j < (dedupSort l).length)
    (h : (dedupSort l).get ⟨i, hi⟩ = (dedupSort l).get ⟨j, hj⟩) : i = j := by
  rcases Nat.lt_trichotomy i j with hij | hij | hij
  · exact absurd (dedupSort_get_lt l hi hj hij) (h ▸ bytesLt_irrefl _)
  · exact hij
  · exact absurd (dedupSort_get_lt l hj hi hij) (h ▸ bytesLt_irrefl _)

/-! ### Metadata buffer: parse of build -/

theorem sumLen_nil : sumLen [] = 0 := rfl

theorem sumLen_cons (s : List Nat) (l : List (List Nat)) :
    sumLen (s :: l) = s.length + sumLen l := by
  simp [sumLen]

theorem sumLen_take_le (l : List (List Nat)) (j : Nat) : sumLen (l.take j) ≤ sumLen l := by
  induction l generalizing j with
  | nil => simp [sumLen]
  | cons s rest ih =>
    cases j with
    | zero => simp [sumLen]
    | succ k =>
      simp only [List.take_succ_cons, sumLen_cons]
      exact Nat.add_le_add_left (ih k) _

theorem sumLen_append (a b : List (List Nat)) : sumLen (a ++ b) = sumLen a + sumLen b := by
  simp [sumLen]

theorem sumLen_take_succ (l : List (List Nat)) (j : Nat) (hj : j < l.length) :
    sumLen (l.take (j + 1)) = sumLen (l.take j) + l[j].length := by
  rw [List.take_succ, List.getElem?_eq_getElem hj, Option.toList_some, sumLen_append]
  simp [sumLen]

theorem offsetBytes_length (w : Nat) (acc : Nat) (l : List (List Nat)) :
    (offsetBytes w acc l).length = w * l.length := by
  induction l generalizing acc with
  | nil => simp [offsetBytes]
  | cons s rest ih =>
    simp only [offsetBytes, List.length_append, natToLE_length, ih, List.length_cons]
    ring

theorem offsetBytes_cons (w acc : Nat) (s : List Nat) (rest : List (List Nat)) :
    offsetBytes w acc (s :: rest) =
      natToLE w (acc + s.length) ++ offsetBytes w (acc + s.length) rest := rfl

theorem offsetBytes_read (w : Nat) (hw : 0 < w) (l : List (List Nat)) (acc j : Nat)
    (hj : j < l.length) (hb : acc + sumLen l ≤ signedMax w) :
    MetadataRef.read_integer (offsetBytes w acc l) (j * w) w =
      acc + sumLen (l.take (j + 1)) := by
  induction l generalizing acc j with
  | nil => exact absurd hj (by simp)
  | cons s rest ih =>
    rw [sumLen_cons] at hb
    cases j with
    | zero =>
      rw [offsetBytes_cons, Nat.zero_mul,
        read_integer_natToLE hw (by omega : acc + s.length ≤ signedMax w)]
      simp [sumLen_cons, sumLen_nil]
    | succ k =>
      rw [offsetBytes_cons]
      have hpos : (k + 1) * w = (natToLE w (acc + s.length)).length + k * w := by
        rw [natToLE_length]; ring
      rw [hpos, read_integer_append,
        ih (acc + s.length) k (by simpa using hj) (by omega)]
      rw [List.take_succ_cons, sumLen_cons]
      ring

theorem read_integer_cons (b : Nat) (rest : List Nat) (w : Nat) :
    MetadataRef.read_integer (b :: rest) 1 w = MetadataRef.read_integer rest 0 w := by
  simp [MetadataRef.read_integer, read_le]

theorem drop_enc_left (enc rest : List Nat) (w : Nat) (h : enc.length = w) :
    (enc ++ rest).drop w = rest := by
  rw [← h, List.drop_left]

theorem take_enc_left (enc rest : List Nat) (w : Nat) (h : enc.length = w) :
    (enc ++ rest).take w = enc := by
  rw [← h, List.take_left]

/-- Opening a metadata buffer of the shape emitted by `build_metadata`
(header for width `W`, count, offsets region of `W * (n + 1)` bytes, string
data). -/
theorem metadata_new_parts (W n' : Nat) (region data' : List Nat)
    (hW : W = 1 ∨ W = 2 ∨ W = 4) (hn : n' ≤ signedMax W)
    (hreg : region.length = W * (n' + 1)) :
    MetadataRef.new ((17 + (W - 1) * 64) :: (natToLE W n' ++ (region ++ data'))) =
      { header := 17 + (W - 1) * 64
        offset_size := W
        dictionary_len := n'
        offsets := region
        data := data' } := by
  have hWpos : 0 < W := by rcases hW with rfl | rfl | rfl <;> norm_num
  have hhdr : (17 + (W - 1) * 64) / 64 % 4 + 1 = W := by
    rcases hW with rfl | rfl | rfl <;> norm_num
  simp only [MetadataRef.new, List.headD_cons]
  rw [hhdr, read_integer_cons, read_integer_natToLE hWpos hn]
  have hdrop : ((17 + (W - 1) * 64) :: (natToLE W n' ++ (region ++ data'))).drop (1 + W) =
      region ++ data' := by
    rw [Nat.add_comm 1 W, List.drop_succ_cons,
      drop_enc_left _ _ _ (natToLE_length W n')]
  have hdrop2 : ((17 + (W - 1) * 64) :: (natToLE W n' ++ (region ++ data'))).drop
      (1 + W + W * (n' + 1)) = data' := by
    rw [← List.drop_drop, hdrop, drop_enc_left _ _ _ hreg]
  have hsub : 1 + W + W * (n' + 1) - (1 + W) = W * (n' + 1) := by omega
  rw [MetadataRef.mk.injEq]
  refine ⟨rfl, rfl, rfl, ?_, hdrop2⟩
  rw [hdrop, hsub, take_enc_left _ _ _ hreg]

/-- `build_metadata` in explicit byte-list form (for total string bytes
below `2^31`, where the header byte does not truncate). -/
theorem build_metadata_eq (S : List (List Nat))
    (hw : determine_byte_width (sumLen (dedupSort S)) ≤ 4) :
    build_metadata S =
      (17 + (determine_byte_width (sumLen (dedupSort S)) - 1) * 64) ::
        (natToLE (determine_byte_width (sumLen (dedupSort S))) (dedupSort S).length
          ++ ((natToLE (determine_byte_width (sumLen (dedupSort S))) 0
              ++ offsetBytes (determine_byte_width (sumLen (dedupSort S))) 0 (dedupSort S))
            ++ (dedupSort S).flatten)) := by
  have hcases := determine_byte_width_cases (sumLen (dedupSort S))
  have hmod : (determine_byte_width (sumLen (dedupSort S)) - 1) * 64 % 256 =
      (determine_byte_width (sumLen (dedupSort S)) - 1) * 64 := by
    rcases hcases with h | h | h | h
    · rw [h]
    · rw [h]
    · rw [h]
    · rw [h] at hw; omega
  simp only [build_metadata, sumLen] at hmod ⊢
  rw [hmod]
  simp [List.append_assoc]

theorem flatten_length_sumLen (l : List (List Nat)) : l.flatten.length = sumLen l := by
  simp [sumLen, List.length_flatten]

theorem region_read (W : Nat) (hWpos : 0 < W) (l : List (List Nat))
    (htot : sumLen l ≤ signedMax W) (j : Nat) (hj : j ≤ l.length) :
    MetadataRef.read_integer (natToLE W 0 ++ offsetBytes W 0 l) (j * W) W =
      sumLen (l.take j) := by
  cases j with
  | zero =>
    rw [Nat.zero_mul, read_integer_natToLE hWpos (by simp [signedMax])]
    simp [sumLen]
  | succ k =>
    have hpos : (k + 1) * W = (natToLE W 0).length + k * W := by
      rw [natToLE_length]; ring
    rw [hpos, read_integer_append,
      offsetBytes_read W hWpos l 0 k (by omega) (by omega)]
    omega

theorem flatten_extract (l : List (List Nat)) (id : Nat) (hid : id < l.length) :
    (l.flatten.drop (sumLen (l.take id))).take
      (sumLen (l.take (id + 1)) - sumLen (l.take id)) = l[id] := by
  have hsplit : l.flatten = (l.take id).flatten ++ (l[id] ++ (l.drop (id + 1)).flatten) := by
    have h1 : l = l.take id ++ (l[id] :: l.drop (id + 1)) := by
      conv =>
        lhs
        rw [← List.take_append_drop id l]
      rw [List.drop_eq_getElem_cons hid]
    calc l.flatten = (l.take id ++ (l[id] :: l.drop (id + 1))).flatten := by rw [← h1]
      _ = (l.take id).flatten ++ (l[id] ++ (l.drop (id + 1)).flatten) := by
          rw [List.flatten_append, List.flatten_cons]
  rw [hsplit, drop_enc_left _ _ _ (by rw [flatten_length_sumLen])]
  rw [sumLen_take_succ l id hid]
  have hd : sumLen (l.take id) + l[id].length - sumLen (l.take id) = l[id].length := by omega
  rw [hd, take_enc_left _ _ _ rfl]

theorem get_string_parts (W : Nat) (hWpos : 0 < W) (l : List (List Nat))
    (htot : sumLen l ≤ signedMax W) (hdr : Nat) (id : Nat) (hid : id < l.length) :
    MetadataRef.get_string
      { header := hdr, offset_size := W, dictionary_len := l.length,
        offsets := natToLE W 0 ++ offsetBytes W 0 l, data := l.flatten } id =
      some l[id] := by
  rw [MetadataRef.get_string]
  rw [if_neg (by omega : ¬ l.length ≤ id)]
  have hoff := region_read W hWpos l htot id (by omega)
  have hnext := region_read W hWpos l htot (id + 1) (by omega)
  simp only at hoff hnext ⊢
  rw [hoff, hnext]
  exact congrArg some (flatten_extract l id hid)

theorem bytesLt_asymm {a b : List Nat} (h : bytesLt a b) : ¬ bytesLt b a := by
  intro h2
  exact bytesLt_irrefl a (bytesLt_trans h h2)

theorem sorted_getElem_lt {l : List (List Nat)} (hs : List.Pairwise bytesLt l) {i j : Nat}
    (hi : i < l.length) (hj : j < l.length) (hij : i < j) : bytesLt l[i] l[j] := by
  have := List.pairwise_iff_get.mp hs ⟨i, hi⟩ ⟨j, hj⟩ hij
  simpa [List.get_eq_getElem] using this

theorem sorted_getElem_inj {l : List (List Nat)} (hs : List.Pairwise bytesLt l) {i j : Nat}
    (hi : i < l.length) (hj : j < l.length) (h : l[i] = l[j]) : i = j := by
  rcases Nat.lt_trichotomy i j with hij | hij | hij
  · exact absurd (sorted_getElem_lt hs hi hj hij) (h ▸ bytesLt_irrefl _)
  · exact hij
  · exact absurd (sorted_getElem_lt hs hj hi hij) (h ▸ bytesLt_irrefl _)

theorem find_loop_member (m : MetadataRef) (l : List (List Nat))
    (hget : ∀ (i : Nat) (h : i < l.length), m.get_string i = some l[i])
    (hs : List.Pairwise bytesLt l) (hlen64 : l.length < 2 ^ 64)
    (idx : Nat) (hidx : idx < l.length) :
    ∀ fuel left right, left ≤ idx → idx ≤ right → right < l.length →
      right - left < fuel →
      m.find_loop l[idx] fuel left right = RRes.ok (some idx) := by
  intro fuel
  induction fuel with
  | zero => intro left right h1 h2 h3 h4; omega
  | succ f ih =>
    intro left right h1 h2 h3 h4
    rw [MetadataRef.find_loop]
    rw [if_pos (by omega : left ≤ right)]
    have hmid : left + (right - left) / 2 < l.length := by omega
    simp only [hget _ hmid]
    rcases hc : bytesCmp l[left + (right - left) / 2] l[idx] with _ | _ | _
    · -- lt: the probe is below the target
      simp only
      have hlt : bytesLt l[left + (right - left) / 2] l[idx] := hc
      have hmidx : left + (right - left) / 2 < idx := by
        rcases Nat.lt_trichotomy (left + (right - left) / 2) idx with h | h | h
        · exact h
        · exact absurd hlt (h ▸ bytesLt_irrefl _)
        · exact absurd (sorted_getElem_lt hs hidx hmid h) (bytesLt_asymm hlt)
      exact ih _ _ (by omega) h2 h3 (by omega)
    · -- eq: found
      simp only
      have := sorted_getElem_inj hs hmid hidx ((bytesCmp_eq_iff _ _).mp hc)
      rw [this]
    · -- gt: the probe is above the target
      simp only
      have hlt : bytesLt l[idx] l[left + (right - left) / 2] := bytesLt_of_gt hc
      have hmidx : idx < left + (right - left) / 2 := by
        rcases Nat.lt_trichotomy idx (left + (right - left) / 2) with h | h | h
        · exact h
        · exact absurd hlt (h ▸ bytesLt_irrefl _)
        · exact absurd (sorted_getElem_lt hs hmid hidx h) (bytesLt_asymm hlt)
      have hwrap : (left + (right - left) / 2 + 2 ^ 64 - 1) % 2 ^ 64 =
          left + (right - left) / 2 - 1 := by
        have h5 : left + (right - left) / 2 + 2 ^ 64 - 1 =
            (left + (right - left) / 2 - 1) + 2 ^ 64 := by omega
        rw [h5, Nat.add_mod_right, Nat.mod_eq_of_lt (by omega)]
      rw [hwrap]
      exact ih _ _ h1 (by omega) (by omega) (by omega)

theorem determine_le_four {n : Nat} (h : n ≤ 2 ^ 31 - 1) :
    determine_byte_width n ≤ 4 := by
  unfold determine_byte_width
  repeat' split
  all_goals omega

theorem signedMax_le_of_le_eight {w : Nat} (h : w ≤ 8) : signedMax w ≤ 2 ^ 63 - 1 := by
  have h1 : 2 ^ (8 * w - 1) ≤ 2 ^ 63 := Nat.pow_le_pow_right (by norm_num) (by omega)
  simp only [signedMax]
  omega

theorem determine_le_eight (n : Nat) : determine_byte_width n ≤ 8 := by
  rcases determine_byte_width_cases n with h | h | h | h <;> omega

/-- For a dictionary built by `build_metadata` (total string bytes below
`2^31`, entry count within the signed width), `find_string` on the opened
view maps the `idx`-th dictionary entry to `Some idx`. -/
theorem build_find_string_member (S : List (List Nat))
    (htot : sumLen (dedupSort S) ≤ 2 ^ 31 - 1)
    (hn : (dedupSort S).length ≤ signedMax (determine_byte_width (sumLen (dedupSort S))))
    (idx : Nat) (hidx : idx < (dedupSort S).length) :
    (MetadataRef.new (build_metadata S)).find_string (dedupSort S)[idx] =
      RRes.ok (some idx) := by
  have hW4 : determine_byte_width (sumLen (dedupSort S)) ≤ 4 := determine_le_four htot
  have hWcases : determine_byte_width (sumLen (dedupSort S)) = 1 ∨
      determine_byte_width (sumLen (dedupSort S)) = 2 ∨
      determine_byte_width (sumLen (dedupSort S)) = 4 := by
    rcases determine_byte_width_cases (sumLen (dedupSort S)) with h | h | h | h <;> omega
  have hWpos : 0 < determine_byte_width (sumLen (dedupSort S)) :=
    determine_byte_width_pos _
  have htot2 : sumLen (dedupSort S) ≤ signedMax (determine_byte_width (sumLen (dedupSort S))) :=
    le_signedMax_determine (by omega)
  have hlen64 : (dedupSort S).length < 2 ^ 64 := by
    have := signedMax_le_of_le_eight (determine_le_eight (sumLen (dedupSort S)))
    omega
  rw [build_metadata_eq S hW4,
    metadata_new_parts _ _ _ _ hWcases hn
      (by simp [natToLE_length, offsetBytes_length]; ring)]
  rw [MetadataRef.find_string]
  have hsorted : MetadataRef.sorted_strings
      { header := 17 + (determine_byte_width (sumLen (dedupSort S)) - 1) * 64
        offset_size := determine_byte_width (sumLen (dedupSort S))
        dictionary_len := (dedupSort S).length
        offsets := natToLE (determine_byte_width (sumLen (dedupSort S))) 0
            ++ offsetBytes (determine_byte_width (sumLen (dedupSort S))) 0 (dedupSort S)
        data := (dedupSort S).flatten } = true := by
    rcases hWcases with h | h | h <;>
      simp [MetadataRef.sorted_strings, h]
  rw [hsorted]
  simp only [if_true]
  rw [if_neg (show ¬((dedupSort S).length = 0) by omega)]
  exact find_loop_member _ (dedupSort S)
    (fun i h => get_string_parts _ hWpos _ htot2 _ i h)
    (dedupSort_pairwise S) hlen64 idx hidx _ 0 _ (by omega) (by omega) (by omega) (by omega)

/-! ### Two's-complement roundtrips at the concrete widths -/

theorem intToTwos_lt_32 (v : Int) : intToTwos 32 v < 2 ^ 32 := by
  unfold intToTwos; omega

theorem intToTwos_lt_64 (v : Int) : intToTwos 64 v < 2 ^ 64 := by
  unfold intToTwos; omega

theorem intToTwos_lt_128 (v : Int) : intToTwos 128 v < 2 ^ 128 := by
  unfold intToTwos; omega

theorem twos64_roundtrip (v : Int) (h1 : -(2 ^ 63) ≤ v) (h2 : v < 2 ^ 63) :
    twosToInt 64 (intToTwos 64 v) = v := by
  unfold twosToInt intToTwos
  omega

set_option maxRecDepth 10000 in
theorem twos128_roundtrip (v : Int) (h1 : -(2 ^ 127) ≤ v) (h2 : v < 2 ^ 127) :
    twosToInt 128 (intToTwos 128 v) = v := by
  unfold twosToInt intToTwos
  omega

/-! ### Claim theorems (first group) -/

set_option maxRecDepth 100000 in
/-- C1: the claim requires `find_string(k) = None` for every non-member `k`,
but for a non-member below the dictionary minimum the binary search
underflows `right = mid - 1` at `mid = 0` and panics: with dictionary
`{"b"}`, looking up `"a"` panics instead of returning `None`. -/
theorem C1_find_string_below_min_panics :
    (MetadataRef.new (build_metadata [[98]])).find_string [97] = RRes.panicked := by
  decide

/-- C5: the claim requires `write_decimal` to pick the narrowest width that
fits the value, but the source compares `value < i32::MAX as i128` with no
lower bound: at `value = -2^31 - 1` (which only fits in i64, so the claim
requires Decimal8) the code emits Decimal4 with the value truncated to 32
bits, and the payload decodes to `2^31 - 1`, not the original value. -/
theorem C5_write_decimal_negative_truncates :
    write_decimal [] (-(2 ^ 31) - 1) 0 = RRes.ok [32, 0, 255, 255, 255, 127] ∧
      twosToInt 32 (leToNat [255, 255, 255, 127]) = 2 ^ 31 - 1 := by
  constructor
  · decide
  · decide

/-- C6: the claim says truncated buffers and unknown ids are returned as
typed errors and never panic, but `ObjectRef::try_new` and
`ArrayRef::try_new` panic slicing a truncated buffer (here: a lone header
byte), and `VariantRef::primitive_type_id` panics on the unknown id 31
(header byte 124). -/
theorem C6_readers_panic_on_adversarial_input :
    ObjectRef.try_new [2] = RRes.panicked ∧
      ArrayRef.try_new [3] = RRes.panicked ∧
      primitive_type_id [124] = RRes.panicked := by
  refine ⟨?_, ?_, ?_⟩ <;> decide

/-- C8 counterexample: with scale 39 the source hits
`panic!("Decimal scale must be between 0 and 38.")` — the failure is a
panic, not a returned error as the claim states. -/
theorem C8_counterexample_scale39_panics :
    write_decimal [] 0 39 = RRes.panicked ∧ write_decimal [] 0 39 ≠ RRes.err := by
  constructor
  · decide
  · decide

/-- C8 (amended): calling `write_decimal` with scale > 38 panics (the error
is thrown, not returned); for scale ≤ 38 no scale error occurs and the
write returns normally. -/
theorem C8_amended_scale_check (v : Int) (s : Nat) :
    (38 < s → write_decimal [] v s = RRes.panicked) ∧
      (s ≤ 38 → ∃ out, write_decimal [] v s = RRes.ok out) := by
  constructor
  · intro h
    rw [write_decimal, if_pos h]
  · intro h
    rw [write_decimal, if_neg (by omega)]
    split
    · exact ⟨_, rfl⟩
    · split
      · exact ⟨_, rfl⟩
      · exact ⟨_, rfl⟩

theorem C8_amended_scale_check_witness :
    write_decimal [] 5 39 = RRes.panicked ∧
      ∃ out, write_decimal [] 5 7 = RRes.ok out :=
  ⟨(C8_amended_scale_check 5 39).1 (by omega), (C8_amended_scale_check 5 7).2 (by omega)⟩

/-- C9: the claim says `append(key, …)` with an absent key returns an error
with the builder state unchanged, but for an absent key ordered below every
dictionary member the key lookup panics (the `find_string` underflow):
with dictionary `{"b"}`, appending under key `"a"` panics instead of
returning an error. -/
theorem C9_append_below_min_panics :
    (ObjectBuilder.with_capacity [] 1).append_value
      (MetadataRef.new (build_metadata [[98]])) [97] [42] = RRes.panicked := by
  decide

/-- C10: `VariantRef::try_new` rejects exactly the empty slice with a
returned error and wraps any non-empty slice as-is, with no further
validation. -/
theorem C10_try_new_empty_check (data : List Nat) :
    (data = [] → VariantRef.try_new data = RRes.err) ∧
      (data ≠ [] → VariantRef.try_new data = RRes.ok data) := by
  constructor
  · intro h
    rw [VariantRef.try_new, if_pos h]
  · intro h
    rw [VariantRef.try_new, if_neg h]

theorem C10_try_new_empty_check_witness :
    VariantRef.try_new [] = RRes.err ∧ VariantRef.try_new [7] = RRes.ok [7] :=
  ⟨(C10_try_new_empty_check []).1 rfl, (C10_try_new_empty_check [7]).2 (by decide)⟩

/-! ### Primitive write/read roundtrips (C4) -/

theorem take_exact (l : List Nat) (w : Nat) (h : l.length = w) : l.take w = l := by
  rw [← h, List.take_length]

theorem read_le_cons (b : Nat) (rest : List Nat) (w : Nat) :
    read_le (b :: rest) 1 w = leToNat (rest.take w) := by
  simp [read_le]

theorem ptid_int64 (xs : List Nat) : primitive_type_id (24 :: xs) = RRes.ok .Int64 := rfl

theorem ptid_float64 (xs : List Nat) : primitive_type_id (28 :: xs) = RRes.ok .Float64 := rfl

theorem ptid_string (xs : List Nat) : primitive_type_id (64 :: xs) = RRes.ok .String := rfl

theorem get_i64_write_i64 (v : Int) (h1 : -(2 ^ 63) ≤ v) (h2 : v < 2 ^ 63) :
    get_i64 (write_i64 [] v) = RRes.ok v := by
  have hb : write_i64 [] v = 24 :: natToLE 8 (intToTwos 64 v) := rfl
  rw [hb, get_i64, ptid_int64]
  rw [if_neg (by simp [natToLE_length])]
  rw [read_le_cons, take_exact _ _ (natToLE_length 8 _), leToNat_natToLE,
    Nat.mod_eq_of_lt (intToTwos_lt_64 v), twos64_roundtrip v h1 h2]

theorem get_f64_write_f64 (bits : Nat) (h : bits < 2 ^ 64) :
    get_f64 (write_f64 [] bits) = RRes.ok bits := by
  have hb : write_f64 [] bits = 28 :: natToLE 8 bits := rfl
  rw [hb, get_f64, ptid_float64]
  rw [if_neg (by simp [natToLE_length])]
  rw [read_le_cons, take_exact _ _ (natToLE_length 8 _), leToNat_natToLE,
    Nat.mod_eq_of_lt (by omega : bits < 2 ^ (8 * 8))]

theorem get_string_write_string (s : List Nat) (h : s.length < 2 ^ 31) :
    get_string (write_string [] s) = RRes.ok s := by
  have hb : write_string [] s = 64 :: (natToLE 4 s.length ++ s) := rfl
  rw [hb, get_string, ptid_string]
  rw [if_neg (by simp [natToLE_length])]
  have hsize : signedToUsize 4 (read_le (64 :: (natToLE 4 s.length ++ s)) 1 4) = s.length := by
    rw [read_le_cons, take_enc_left _ _ _ (natToLE_length 4 _), leToNat_natToLE,
      Nat.mod_eq_of_lt (by norm_num; omega : s.length < 2 ^ (8 * 4))]
    exact signedToUsize_small (by norm_num; omega)
  simp only [hsize]
  have hslice : slice? (64 :: (natToLE 4 s.length ++ s)) 5 (5 + s.length) = some s := by
    rw [slice?, if_pos (by simp [natToLE_length]; omega)]
    have hdrop : (64 :: (natToLE 4 s.length ++ s)).drop 5 = s := by
      have : (64 :: (natToLE 4 s.length ++ s)).drop 5 =
          (natToLE 4 s.length ++ s).drop 4 := rfl
      rw [this, drop_enc_left _ _ _ (natToLE_length 4 _)]
    rw [hdrop]
    have : 5 + s.length - 5 = s.length := by omega
    rw [this, List.take_length]
  rw [hslice]

/-- C4 (amended): writing a bool / i64 / f64 / string (of byte length below
`2^31`) into an empty buffer and reading it back through `VariantRef` gives
basic type Primitive, the matching primitive type id, and the original
value (the f64 is transported as its 64-bit IEEE bit pattern). -/
theorem C4_amended_primitive_roundtrip :
    (∀ b : Bool,
      basic_type (write_bool [] b) = RRes.ok .Primitive ∧
        primitive_type_id (write_bool [] b) =
          RRes.ok (if b then PrimitiveTypeId.BoolTrue else PrimitiveTypeId.BoolFalse) ∧
        get_bool (write_bool [] b) = RRes.ok b) ∧
    (∀ v : Int, -(2 ^ 63) ≤ v → v < 2 ^ 63 →
      basic_type (write_i64 [] v) = RRes.ok .Primitive ∧
        primitive_type_id (write_i64 [] v) = RRes.ok .Int64 ∧
        get_i64 (write_i64 [] v) = RRes.ok v) ∧
    (∀ bits : Nat, bits < 2 ^ 64 →
      basic_type (write_f64 [] bits) = RRes.ok .Primitive ∧
        primitive_type_id (write_f64 [] bits) = RRes.ok .Float64 ∧
        get_f64 (write_f64 [] bits) = RRes.ok bits) ∧
    (∀ s : List Nat, s.length < 2 ^ 31 →
      basic_type (write_string [] s) = RRes.ok .Primitive ∧
        primitive_type_id (write_string [] s) = RRes.ok .String ∧
        get_string (write_string [] s) = RRes.ok s) := by
  refine ⟨?_, ?_, ?_, ?_⟩
  · intro b
    cases b <;> exact ⟨rfl, rfl, rfl⟩
  · intro v h1 h2
    exact ⟨rfl, rfl, get_i64_write_i64 v h1 h2⟩
  · intro bits h
    exact ⟨rfl, rfl, get_f64_write_f64 bits h⟩
  · intro s h
    exact ⟨rfl, rfl, get_string_write_string s h⟩

theorem C4_amended_primitive_roundtrip_witness :
    get_bool (write_bool [] true) = RRes.ok true ∧
      get_i64 (write_i64 [] (-42)) = RRes.ok (-42) ∧
      get_f64 (write_f64 [] 7) = RRes.ok 7 ∧
      get_string (write_string [] [104, 105]) = RRes.ok [104, 105] :=
  ⟨(C4_amended_primitive_roundtrip.1 true).2.2,
    (C4_amended_primitive_roundtrip.2.1 (-42) (by norm_num) (by norm_num)).2.2,
    (C4_amended_primitive_roundtrip.2.2.1 7 (by norm_num)).2.2,
    (C4_amended_primitive_roundtrip.2.2.2 [104, 105] (by norm_num)).2.2⟩

theorem get_string_write_string_overlong (s : List Nat)
    (h1 : 2 ^ 31 ≤ s.length) (h2 : s.length < 2 ^ 32) :
    get_string (write_string [] s) = RRes.panicked := by
  have hb : write_string [] s = 64 :: (natToLE 4 s.length ++ s) := rfl
  rw [hb, get_string, ptid_string]
  rw [if_neg (by
    simp only [List.length_cons, List.length_append, natToLE_length]
    omega)]
  have hsize : signedToUsize 4 (read_le (64 :: (natToLE 4 s.length ++ s)) 1 4) =
      s.length + (2 ^ 64 - 2 ^ 32) := by
    rw [read_le_cons, take_enc_left _ _ _ (natToLE_length 4 _), leToNat_natToLE,
      Nat.mod_eq_of_lt (by norm_num; omega : s.length < 2 ^ (8 * 4))]
    rw [signedToUsize, if_neg (by norm_num; omega)]
  simp only [hsize]
  have hslice : slice? (64 :: (natToLE 4 s.length ++ s)) 5
      (5 + (s.length + (2 ^ 64 - 2 ^ 32))) = none := by
    rw [slice?, if_neg]
    simp only [List.length_cons, List.length_append, natToLE_length]
    intro hcontra
    omega
  rw [hslice]

/-- C4 counterexample: the claim quantifies over every string, but a string
of `2^31` bytes does not round-trip: `write_string` truncates the length to
`i32` (making it negative), and `get_string` sign-extends it to a huge
`usize` and panics slicing past the end of the buffer. -/
theorem C4_counterexample_big_string :
    get_string (write_string [] (List.replicate (2 ^ 31) 97)) = RRes.panicked :=
  get_string_write_string_overlong (List.replicate (2 ^ 31) 97)
    (by rw [List.length_replicate]) (by rw [List.length_replicate]; norm_num)

/-! ### Array builder and reader (C3) -/

theorem offsetBytes_read_u (w : Nat) (hw : 0 < w) (l : List (List Nat)) (acc j : Nat)
    (hj : j < l.length) (hb : acc + sumLen l < 2 ^ (8 * w)) :
    read_le (offsetBytes w acc l) (j * w) w = acc + sumLen (l.take (j + 1)) := by
  induction l generalizing acc j with
  | nil => exact absurd hj (by simp)
  | cons s rest ih =>
    rw [sumLen_cons] at hb
    cases j with
    | zero =>
      rw [offsetBytes_cons, Nat.zero_mul, read_le_natToLE,
        Nat.mod_eq_of_lt (by omega)]
      simp [sumLen_cons, sumLen_nil]
    | succ k =>
      rw [offsetBytes_cons]
      have hpos : (k + 1) * w = (natToLE w (acc + s.length)).length + k * w := by
        rw [natToLE_length]; ring
      rw [hpos, read_le_append,
        ih (acc + s.length) k (by simpa using hj) (by omega)]
      rw [List.take_succ_cons, sumLen_cons]
      ring

theorem region_read_u (w : Nat) (hw : 0 < w) (l : List (List Nat))
    (hfit : sumLen l < 2 ^ (8 * w)) (j : Nat) (hj : j ≤ l.length) :
    read_le (natToLE w 0 ++ offsetBytes w 0 l) (j * w) w = sumLen (l.take j) := by
  cases j with
  | zero =>
    rw [Nat.zero_mul, read_le_natToLE, Nat.mod_eq_of_lt (by omega)]
    simp [sumLen]
  | succ k =>
    have hpos : (k + 1) * w = (natToLE w 0).length + k * w := by
      rw [natToLE_length]; ring
    rw [hpos, read_le_append,
      offsetBytes_read_u w hw l 0 k (by omega) (by omega)]
    omega

theorem foldl_append_value (w : Nat) (buf tmp : List Nat) (es : List (List Nat)) :
    es.foldl ArrayBuilder.append_value
      { buffer := buf, field_offset_width := w, tmp_buffer := tmp } =
      { buffer := buf ++ offsetBytes w tmp.length es
        field_offset_width := w
        tmp_buffer := tmp ++ es.flatten } := by
  induction es generalizing buf tmp with
  | nil => simp [offsetBytes]
  | cons e rest ih =>
    rw [List.foldl_cons]
    have hstep : ArrayBuilder.append_value
        { buffer := buf, field_offset_width := w, tmp_buffer := tmp } e =
        { buffer := buf ++ natToLE w (tmp.length + e.length)
          field_offset_width := w
          tmp_buffer := tmp ++ e } := by
      simp [ArrayBuilder.append_value, push_offset, write_integer]
    rw [hstep, ih]
    rw [offsetBytes_cons]
    simp [List.append_assoc]

theorem buildArray_eq (es : List (List Nat)) :
    buildArray es =
      (((if 127 < es.length then 1 else 0) * 4 + (get_offset_size es.length - 1)) * 4 + 3) ::
        (natToLE (if 127 < es.length then 4 else 1) es.length ++
          (natToLE (get_offset_size es.length) 0 ++
            (offsetBytes (get_offset_size es.length) 0 es ++ es.flatten))) := by
  have hnew : ArrayBuilder.new [] es.length =
      { buffer := (((if 127 < es.length then 1 else 0) * 4 +
            (get_offset_size es.length - 1)) * 4 + 3) ::
          (natToLE (if 127 < es.length then 4 else 1) es.length ++
            natToLE (get_offset_size es.length) 0)
        field_offset_width := get_offset_size es.length
        tmp_buffer := [] } := by
    by_cases h127 : 127 < es.length <;>
      simp [ArrayBuilder.new, h127, push_offset, write_integer, BasicType.toNat,
        List.append_assoc]
  rw [buildArray, hnew, foldl_append_value]
  rw [ArrayBuilder.finish]
  simp [List.append_assoc, offsetBytes]

theorem basic_type_cons_array (b : Nat) (xs : List Nat) (hb : b % 4 = 3) :
    basic_type (b :: xs) = RRes.ok BasicType.Array := by
  rw [basic_type, hb]
  rfl

theorem basic_type_cons_object (b : Nat) (xs : List Nat) (hb : b % 4 = 2) :
    basic_type (b :: xs) = RRes.ok BasicType.Object := by
  rw [basic_type, hb]
  rfl

/-- Opening an array buffer of the shape emitted by `ArrayBuilder`. -/
theorem array_try_new_parts (w cw iL n : Nat) (offs vals : List Nat)
    (hw : w = 1 ∨ w = 2 ∨ w = 4)
    (hiL : iL ≤ 1)
    (hcw : cw = if iL = 1 then 4 else 1)
    (hn : n ≤ signedMax cw)
    (hoffs : offs.length = (n + 1) * w) :
    ArrayRef.try_new (((iL * 4 + (w - 1)) * 4 + 3) :: (natToLE cw n ++ (offs ++ vals))) =
      RRes.ok { len := n, offset_width := w, offsets := offs, values := vals } := by
  have hw3 : w - 1 ≤ 3 := by rcases hw with rfl | rfl | rfl <;> omega
  have hb : ((iL * 4 + (w - 1)) * 4 + 3) % 4 = 3 := by omega
  simp only [ArrayRef.try_new, basic_type_cons_array _ _ hb, List.headD_cons,
    List.drop_succ_cons]
  have hisl : ((iL * 4 + (w - 1)) * 4 + 3) / 4 / 4 % 2 = iL := by omega
  have hwidth : ((iL * 4 + (w - 1)) * 4 + 3) / 4 % 4 + 1 = w := by omega
  simp only [List.drop_zero, hisl, hwidth, ← hcw]
  have hcwpos : 0 < cw := by rw [hcw]; split <;> norm_num
  have hsm : n < 2 ^ (8 * cw - 1) := by
    have h0 : 0 < 2 ^ (8 * cw - 1) := Nat.pos_pow_of_pos _ (by norm_num)
    simp only [signedMax] at hn
    omega
  have hnlt : n < 2 ^ (8 * cw) :=
    lt_of_lt_of_le hsm (Nat.pow_le_pow_right (by norm_num) (by omega))
  rw [read_le_natToLE, Nat.mod_eq_of_lt hnlt, signedToUsize_small hsm]
  rw [if_neg (by simp only [List.length_append, natToLE_length]; omega)]
  rw [drop_enc_left _ _ _ (natToLE_length cw n)]
  rw [slice?, if_pos ⟨Nat.zero_le _, by simp only [List.length_append]; omega⟩]
  simp only [List.drop_zero, Nat.sub_zero]
  rw [take_enc_left _ _ _ hoffs, drop_enc_left _ _ _ hoffs]

theorem array_parse (es : List (List Nat)) (hn : es.length < 2 ^ 31) :
    ArrayRef.try_new (buildArray es) =
      RRes.ok { len := es.length
                offset_width := get_offset_size es.length
                offsets := natToLE (get_offset_size es.length) 0
                    ++ offsetBytes (get_offset_size es.length) 0 es
                values := es.flatten } := by
  have hwdisj : get_offset_size es.length = 1 ∨ get_offset_size es.length = 2 ∨
      get_offset_size es.length = 4 := by
    have h4 := determine_le_four (show es.length ≤ 2 ^ 31 - 1 by omega)
    have hc := determine_byte_width_cases es.length
    unfold get_offset_size
    omega
  have hiL : (if 127 < es.length then 1 else 0) ≤ 1 := by split <;> norm_num
  have hcw : (if 127 < es.length then 4 else 1) =
      if (if 127 < es.length then 1 else 0) = 1 then 4 else 1 := by
    split <;> norm_num
  have hn2 : es.length ≤ signedMax (if 127 < es.length then 4 else 1) := by
    split
    · norm_num [signedMax]; omega
    · norm_num [signedMax]; omega
  have hoffslen : (natToLE (get_offset_size es.length) 0
      ++ offsetBytes (get_offset_size es.length) 0 es).length =
      (es.length + 1) * get_offset_size es.length := by
    simp [natToLE_length, offsetBytes_length]
    ring
  rw [buildArray_eq,
    show natToLE (get_offset_size es.length) 0 ++
        (offsetBytes (get_offset_size es.length) 0 es ++ es.flatten) =
      (natToLE (get_offset_size es.length) 0 ++ offsetBytes (get_offset_size es.length) 0 es)
        ++ es.flatten from (List.append_assoc _ _ _).symm]
  exact array_try_new_parts _ _ _ _ _ _ hwdisj hiL hcw hn2 hoffslen

theorem array_get_element_parts (w : Nat) (hw : 0 < w) (es : List (List Nat))
    (hfit : sumLen es < 2 ^ (8 * w)) (i : Nat) (hi : i < es.length) :
    ArrayRef.get_element
      { len := es.length, offset_width := w,
        offsets := natToLE w 0 ++ offsetBytes w 0 es, values := es.flatten } i =
      RRes.ok (some es[i]) := by
  simp only [ArrayRef.get_element, ArrayRef.get_offset]
  rw [if_neg (show ¬(es.length ≤ i) by omega)]
  rw [region_read_u w hw es hfit i (Nat.le_of_lt hi),
    region_read_u w hw es hfit (i + 1) (by omega)]
  have hmono : sumLen (es.take i) ≤ sumLen (es.take (i + 1)) := by
    rw [sumLen_take_succ es i hi]
    omega
  have hstop : sumLen (es.take (i + 1)) ≤ es.flatten.length := by
    rw [flatten_length_sumLen]
    exact sumLen_take_le es (i + 1)
  rw [slice?, if_pos ⟨hmono, hstop⟩]
  exact congrArg (fun x => RRes.ok (some x)) (flatten_extract es i hi)

/-- C3 (amended): building with ArrayBuilder and reading back with ArrayRef
round-trips — the opened array has length n and element(i) = e_i — provided
the element count is below 2^31 and the total payload length fits the
offset width that the builder chooses from the element count alone
(`sumLen es < 2^(8·get_offset_size n)`); without the latter bound the
offsets are truncated (see the counterexample). -/
theorem C3_amended_array_roundtrip (es : List (List Nat))
    (hn : es.length < 2 ^ 31)
    (hfit : sumLen es < 2 ^ (8 * get_offset_size es.length)) :
    ∃ a, ArrayRef.try_new (buildArray es) = RRes.ok a ∧
      a.len = es.length ∧
      ∀ (i : Nat), i < es.length → a.get_element i = RRes.ok (some es[i]!) := by
  refine ⟨_, array_parse es hn, rfl, ?_⟩
  intro i hi
  rw [getElem!_pos es i hi]
  exact array_get_element_parts _
    (by unfold get_offset_size; exact determine_byte_width_pos _) es hfit i hi

theorem C3_amended_array_roundtrip_witness :
    ∃ a, ArrayRef.try_new (buildArray [[24], [28, 0]]) = RRes.ok a ∧
      a.len = [[24], [28, 0]].length ∧
      ∀ (i : Nat), i < [[24], [28, 0]].length →
        a.get_element i = RRes.ok (some [[24], [28, 0]][i]!) :=
  C3_amended_array_roundtrip [[24], [28, 0]] (by norm_num) (by decide)

set_option maxRecDepth 100000 in
/-- C3 counterexample: the claim as stated fails when the payload outgrows
the offset width chosen from the element count: a single 256-byte element
is declared with a 1-byte offset width, the final offset 256 truncates to
0, and `get_element 0` returns the empty slice instead of the element. -/
theorem C3_counterexample_offset_truncation :
    ArrayRef.try_new (buildArray [List.replicate 256 7]) =
      RRes.ok (⟨1, 1, [0, 0], List.replicate 256 7⟩ : ArrayRef) ∧
      ArrayRef.get_element (⟨1, 1, [0, 0], List.replicate 256 7⟩ : ArrayRef) 0 =
        RRes.ok (some []) ∧
      RRes.ok (some ([] : List Nat)) ≠ RRes.ok (some (List.replicate 256 7)) := by
  refine ⟨?_, ?_, ?_⟩ <;> decide

/-! ### Object builder and reader (C2) -/

theorem patched_header_eq (iL f OW : Nat)
    (hiL : iL ≤ 1) (hf : f = 1 ∨ f = 2 ∨ f = 4) (hOW : OW = 1 ∨ OW = 2 ∨ OW = 4) :
    ((iL * 16 + (f - 1) * 4) * 4 + 2) ||| (OW - 1) * 4 =
      (iL * 16 + (f - 1) * 4) * 4 + 2 + (OW - 1) * 4 := by
  have hiL0 : iL = 0 ∨ iL = 1 := by omega
  rcases hiL0 with rfl | rfl <;> rcases hf with rfl | rfl | rfl <;>
    rcases hOW with rfl | rfl | rfl <;> decide

theorem insertPair_perm (p : Nat × Nat) (l : List (Nat × Nat)) :
    List.Perm (insertPair p l) (p :: l) := by
  induction l with
  | nil => exact List.Perm.refl _
  | cons q rest ih =>
    rw [insertPair]
    split
    · exact List.Perm.refl _
    · exact (List.Perm.cons q ih).trans (List.Perm.swap p q rest)

theorem sortPairs_perm (l : List (Nat × Nat)) : List.Perm (sortPairs l) l := by
  induction l with
  | nil => exact List.Perm.refl _
  | cons p rest ih =>
    rw [sortPairs]
    exact (insertPair_perm p (sortPairs rest)).trans (List.Perm.cons p ih)

theorem insertPair_sorted (p : Nat × Nat) (l : List (Nat × Nat))
    (h : List.Pairwise (fun a b : Nat × Nat => a.1 ≤ b.1) l) :
    List.Pairwise (fun a b : Nat × Nat => a.1 ≤ b.1) (insertPair p l) := by
  induction l with
  | nil => simp [insertPair]
  | cons q rest ih =>
    rw [insertPair]
    split
    · rename_i hle
      refine List.Pairwise.cons ?_ h
      intro b hb
      rcases List.mem_cons.mp hb with rfl | hb2
      · exact hle
      · exact le_trans hle (List.rel_of_pairwise_cons h hb2)
    · rename_i hgt
      refine List.Pairwise.cons ?_ (ih (List.Pairwise.of_cons h))
      intro b hb
      rcases List.mem_cons.mp ((insertPair_perm p rest).mem_iff.mp hb) with rfl | hb2
      · omega
      · exact List.rel_of_pairwise_cons h hb2

theorem sortPairs_sorted (l : List (Nat × Nat)) :
    List.Pairwise (fun a b : Nat × Nat => a.1 ≤ b.1) (sortPairs l) := by
  induction l with
  | nil => simp [sortPairs]
  | cons p rest ih => exact insertPair_sorted p _ ih

theorem mem_le_foldr_max (L : List Nat) (x : Nat) (hx : x ∈ L) :
    x ≤ L.foldr max 0 := by
  induction L with
  | nil => simp at hx
  | cons y rest ih =>
    rcases List.mem_cons.mp hx with rfl | h2
    · exact le_max_left _ _
    · exact le_trans (ih h2) (le_max_right _ _)

theorem sortPairs_strict (l : List (Nat × Nat)) (hnd : (l.map Prod.fst).Nodup) :
    List.Pairwise (fun a b : Nat × Nat => a.1 < b.1) (sortPairs l) := by
  have hsorted := sortPairs_sorted l
  have hnd2 : ((sortPairs l).map Prod.fst).Nodup :=
    (List.Perm.nodup_iff (List.Perm.map Prod.fst (sortPairs_perm l))).mpr hnd
  have hne : List.Pairwise (fun a b : Nat × Nat => a.1 ≠ b.1) (sortPairs l) :=
    List.pairwise_map.mp hnd2
  exact (hsorted.and hne).imp (fun h => lt_of_le_of_ne h.1 h.2)

theorem offsetsFrom_cons (acc : Nat) (v : List Nat) (rest : List (List Nat)) :
    offsetsFrom acc (v :: rest) = acc :: offsetsFrom (acc + v.length) rest := rfl

theorem appendAll_cons (meta : MetadataRef) (k v : List Nat)
    (rest : List (List Nat × List Nat)) (b : ObjectBuilder) :
    appendAll meta ((k, v) :: rest) b =
      match b.append_value meta k v with
      | .ok b2 => appendAll meta rest b2
      | .err => .err
      | .panicked => .panicked
      | .fuelOut => .fuelOut := rfl

theorem offsetsFrom_length (acc : Nat) (vs : List (List Nat)) :
    (offsetsFrom acc vs).length = vs.length := by
  induction vs generalizing acc with
  | nil => rfl
  | cons v rest ih => simp [offsetsFrom, ih]

theorem offsetsFrom_getElem (acc : Nat) (vs : List (List Nat)) (i : Nat)
    (hi : i < vs.length) (hi2 : i < (offsetsFrom acc vs).length) :
    (offsetsFrom acc vs)[i] = acc + sumLen (vs.take i) := by
  induction vs generalizing acc i with
  | nil => simp at hi
  | cons v rest ih =>
    cases i with
    | zero => simp [offsetsFrom, sumLen]
    | succ k =>
      simp only [offsetsFrom_cons, List.getElem_cons_succ]
      rw [ih _ k (by simpa using hi)
        (by rw [offsetsFrom_length]; simp only [List.length_cons] at hi; omega)]
      rw [List.take_succ_cons, sumLen_cons]
      ring

theorem appendAll_ok (meta : MetadataRef) (pairs : List (List Nat × List Nat))
    (ids : List Nat) (b : ObjectBuilder)
    (hlen : ids.length = pairs.length)
    (hres : ∀ (i : Nat) (hi : i < pairs.length) (hi2 : i < ids.length),
      meta.find_string (pairs[i].1) = RRes.ok (some ids[i])) :
    appendAll meta pairs b = RRes.ok
      { b with
        field_id_and_offsets := b.field_id_and_offsets ++
          ids.zip (offsetsFrom b.tmp_buffer.length (pairs.map Prod.snd))
        tmp_buffer := b.tmp_buffer ++ (pairs.map Prod.snd).flatten } := by
  induction pairs generalizing ids b with
  | nil =>
    cases ids with
    | nil => simp [appendAll]
    | cons _ _ => simp at hlen
  | cons pv rest ih =>
    obtain ⟨k, v⟩ := pv
    cases ids with
    | nil => simp at hlen
    | cons id0 ids2 =>
      have h0 := hres 0 (by simp) (by simp)
      simp only [List.getElem_cons_zero] at h0
      have happ : b.append_value meta k v = RRes.ok
          { b with
            field_id_and_offsets := b.field_id_and_offsets ++ [(id0, b.tmp_buffer.length)]
            tmp_buffer := b.tmp_buffer ++ v } := by
        rw [ObjectBuilder.append_value, h0]
      rw [appendAll_cons, happ]
      show appendAll meta rest
        { b with
          field_id_and_offsets := b.field_id_and_offsets ++ [(id0, b.tmp_buffer.length)]
          tmp_buffer := b.tmp_buffer ++ v } = _
      have hstep := ih ids2
        { b with
          field_id_and_offsets := b.field_id_and_offsets ++ [(id0, b.tmp_buffer.length)]
          tmp_buffer := b.tmp_buffer ++ v }
        (by simpa using hlen)
        (fun i hi hi2 => by
          have := hres (i + 1) (by simpa using Nat.succ_lt_succ hi)
            (by simpa using Nat.succ_lt_succ hi2)
          simpa using this)
      rw [hstep]
      simp [List.append_assoc, offsetsFrom_cons]

theorem gos_small_cases {n : Nat} (h : n < 2 ^ 31) :
    get_offset_size n = 1 ∨ get_offset_size n = 2 ∨ get_offset_size n = 4 := by
  have h4 := determine_le_four (show n ≤ 2 ^ 31 - 1 by omega)
  have hc := determine_byte_width_cases n
  unfold get_offset_size
  omega

theorem finish_objBytes (pairs : List (List Nat × List Nat)) (ids : List Nat)
    (hlen : ids.length = pairs.length)
    (hn : pairs.length < 2 ^ 31) (hF : sumLen (pairs.map Prod.snd) < 2 ^ 31) :
    ObjectBuilder.finish
      { buffer := (((if 127 < pairs.length then 1 else 0) * 16 +
            (get_offset_size pairs.length - 1) * 4) * 4 + 2) ::
          natToLE (if 127 < pairs.length then 4 else 1) pairs.length
        header_offset := 0
        field_id_and_offsets := ids.zip (offsetsFrom 0 (pairs.map Prod.snd))
        tmp_buffer := (pairs.map Prod.snd).flatten } = objBytes pairs ids := by
  have hiL : (if 127 < pairs.length then 1 else 0) ≤ 1 := by split <;> norm_num
  have hf := gos_small_cases hn
  have hOW := gos_small_cases hF
  simp only [ObjectBuilder.finish, List.getD_cons_zero, List.set_cons_zero]
  rw [List.map_fst_zip ids _ (by rw [offsetsFrom_length, List.length_map]; omega)]
  rw [flatten_length_sumLen]
  rw [patched_header_eq _ _ _ hiL hf hOW]
  rw [objBytes]
  simp [List.append_assoc, push_offset, write_integer]

theorem buildObject_ok (meta : MetadataRef) (pairs : List (List Nat × List Nat))
    (ids : List Nat)
    (hlen : ids.length = pairs.length)
    (hres : ∀ (i : Nat) (hi : i < pairs.length) (hi2 : i < ids.length),
      meta.find_string (pairs[i].1) = RRes.ok (some ids[i]))
    (hn : pairs.length < 2 ^ 31) (hF : sumLen (pairs.map Prod.snd) < 2 ^ 31) :
    buildObject meta pairs = RRes.ok (objBytes pairs ids) := by
  have hwc : ObjectBuilder.with_capacity [] pairs.length =
      { buffer := (((if 127 < pairs.length then 1 else 0) * 16 +
            (get_offset_size pairs.length - 1) * 4) * 4 + 2) ::
          natToLE (if 127 < pairs.length then 4 else 1) pairs.length
        header_offset := 0
        field_id_and_offsets := []
        tmp_buffer := [] } := by
    by_cases h127 : 127 < pairs.length <;>
      simp [ObjectBuilder.with_capacity, h127, push_offset, write_integer, BasicType.toNat]
  have happ := appendAll_ok meta pairs ids (ObjectBuilder.with_capacity [] pairs.length)
    hlen hres
  rw [hwc] at happ
  simp only [List.nil_append, List.length_nil] at happ
  rw [buildObject, hwc, happ]
  show RRes.ok (ObjectBuilder.finish
      { buffer := (((if 127 < pairs.length then 1 else 0) * 16 +
            (get_offset_size pairs.length - 1) * 4) * 4 + 2) ::
          natToLE (if 127 < pairs.length then 4 else 1) pairs.length
        header_offset := 0
        field_id_and_offsets := ids.zip (offsetsFrom 0 (pairs.map Prod.snd))
        tmp_buffer := (pairs.map Prod.snd).flatten }) = _
  rw [finish_objBytes pairs ids hlen hn hF]

/-- Opening an object buffer of the shape emitted by `ObjectBuilder`. -/
theorem object_try_new_parts (f ow cw iL n : Nat) (fids offs vals : List Nat)
    (hf : f = 1 ∨ f = 2 ∨ f = 4)
    (how : ow = 1 ∨ ow = 2 ∨ ow = 4)
    (hiL : iL ≤ 1)
    (hcw : cw = if iL = 1 then 4 else 1)
    (hn : n ≤ signedMax cw)
    (hfids : fids.length = n * f)
    (hoffs : offs.length = (n + 1) * ow) :
    ObjectRef.try_new
      (((iL * 16 + (f - 1) * 4) * 4 + 2 + (ow - 1) * 4) ::
        (natToLE cw n ++ (fids ++ (offs ++ vals)))) =
      RRes.ok { len := n, field_id_width := f, offset_width := ow,
                field_ids := fids, offsets := offs, values := vals } := by
  have hf3 : f - 1 ≤ 3 := by rcases hf with rfl | rfl | rfl <;> omega
  have how3 : ow - 1 ≤ 3 := by rcases how with rfl | rfl | rfl <;> omega
  have hb : ((iL * 16 + (f - 1) * 4) * 4 + 2 + (ow - 1) * 4) % 4 = 2 := by omega
  simp only [ObjectRef.try_new, basic_type_cons_object _ _ hb, List.headD_cons,
    List.drop_succ_cons]
  have hwidth : ((iL * 16 + (f - 1) * 4) * 4 + 2 + (ow - 1) * 4) / 4 % 4 + 1 = ow := by
    omega
  have hfwidth : ((iL * 16 + (f - 1) * 4) * 4 + 2 + (ow - 1) * 4) / 4 / 4 % 4 + 1 = f := by
    omega
  have hisl : ((iL * 16 + (f - 1) * 4) * 4 + 2 + (ow - 1) * 4) / 4 / 16 % 2 = iL := by
    omega
  simp only [List.drop_zero, hwidth, hfwidth, hisl, ← hcw]
  have hcwpos : 0 < cw := by rw [hcw]; split <;> norm_num
  have hsm : n < 2 ^ (8 * cw - 1) := by
    have h0 : 0 < 2 ^ (8 * cw - 1) := Nat.pos_pow_of_pos _ (by norm_num)
    simp only [signedMax] at hn
    omega
  have hnlt : n < 2 ^ (8 * cw) :=
    lt_of_lt_of_le hsm (Nat.pow_le_pow_right (by norm_num) (by omega))
  rw [read_le_natToLE, Nat.mod_eq_of_lt hnlt, signedToUsize_small hsm]
  rw [if_neg (by simp only [List.length_append, natToLE_length]; omega)]
  rw [drop_enc_left _ _ _ (natToLE_length cw n)]
  rw [slice?, if_pos ⟨Nat.zero_le _, by simp only [List.length_append]; omega⟩]
  simp only [List.drop_zero, Nat.sub_zero]
  rw [take_enc_left _ _ _ hfids, drop_enc_left _ _ _ hfids]
  rw [slice?, if_pos ⟨Nat.zero_le _, by simp only [List.length_append]; omega⟩]
  simp only [List.drop_zero, Nat.sub_zero]
  rw [take_enc_left _ _ _ hoffs, drop_enc_left _ _ _ hoffs]

theorem flatMap_natToLE_length (w : Nat) (g : Nat × Nat → Nat) (l : List (Nat × Nat)) :
    (l.flatMap (fun p => natToLE w (g p))).length = l.length * w := by
  induction l with
  | nil => simp
  | cons p rest ih =>
    simp only [List.flatMap_cons, List.length_append, natToLE_length, ih, List.length_cons]
    ring

theorem flatMap_read (w : Nat) (g : Nat × Nat → Nat) (l : List (Nat × Nat)) (rest : List Nat)
    (j : Nat) (hj : j < l.length) (hb : ∀ p ∈ l, g p < 2 ^ (8 * w)) :
    read_le (l.flatMap (fun p => natToLE w (g p)) ++ rest) (j * w) w = g l[j] := by
  induction l generalizing j rest with
  | nil => simp at hj
  | cons p tail ih =>
    cases j with
    | zero =>
      simp only [List.flatMap_cons, List.getElem_cons_zero, Nat.zero_mul, List.append_assoc]
      rw [read_le_natToLE, Nat.mod_eq_of_lt (hb p (by simp))]
    | succ k =>
      simp only [List.flatMap_cons, List.getElem_cons_succ, List.append_assoc]
      have hpos : (k + 1) * w = (natToLE w (g p)).length + k * w := by
        rw [natToLE_length]; ring
      rw [hpos, read_le_append]
      exact ih rest k (by simpa using hj) (fun q hq => hb q (by simp [hq]))

theorem object_parse (pairs : List (List Nat × List Nat)) (ids : List Nat)
    (hlen : ids.length = pairs.length)
    (hn : pairs.length < 2 ^ 31) (hF : sumLen (pairs.map Prod.snd) < 2 ^ 31)
    (hagree : get_offset_size (ids.foldr max 0) = get_offset_size pairs.length) :
    ObjectRef.try_new (objBytes pairs ids) = RRes.ok (objParsed pairs ids) := by
  have hsortlen : (sortPairs (ids.zip (offsetsFrom 0 (pairs.map Prod.snd)))).length =
      pairs.length := by
    rw [(sortPairs_perm _).length_eq, List.length_zip, offsetsFrom_length, List.length_map]
    omega
  have hiL : (if 127 < pairs.length then 1 else 0) ≤ 1 := by split <;> norm_num
  have hcw : (if 127 < pairs.length then 4 else 1) =
      if (if 127 < pairs.length then 1 else 0) = 1 then 4 else 1 := by split <;> norm_num
  have hn2 : pairs.length ≤ signedMax (if 127 < pairs.length then 4 else 1) := by
    split
    · norm_num [signedMax]; omega
    · norm_num [signedMax]; omega
  have hfids : ((sortPairs (ids.zip (offsetsFrom 0 (pairs.map Prod.snd)))).flatMap
      (fun p => natToLE (get_offset_size (ids.foldr max 0)) p.1)).length =
      pairs.length * get_offset_size pairs.length := by
    rw [flatMap_natToLE_length, hsortlen, hagree]
  have hoffs : (((sortPairs (ids.zip (offsetsFrom 0 (pairs.map Prod.snd)))).flatMap
      (fun p => natToLE (get_offset_size (sumLen (pairs.map Prod.snd))) p.2)) ++
      natToLE (get_offset_size (sumLen (pairs.map Prod.snd)))
        (sumLen (pairs.map Prod.snd))).length =
      (pairs.length + 1) * get_offset_size (sumLen (pairs.map Prod.snd)) := by
    rw [List.length_append, flatMap_natToLE_length, hsortlen, natToLE_length]
    ring
  rw [objBytes, objParsed]
  nth_rewrite 3 [← List.append_assoc]
  exact object_try_new_parts _ _ _ _ _ _ _ _ (gos_small_cases hn) (gos_small_cases hF)
    hiL hcw hn2 hfids hoffs

theorem sortedNat_getElem_lt {l : List Nat} (hs : List.Pairwise (· < ·) l) {i j : Nat}
    (hi : i < l.length) (hj : j < l.length) (hij : i < j) : l[i] < l[j] := by
  have := List.pairwise_iff_get.mp hs ⟨i, hi⟩ ⟨j, hj⟩ hij
  simpa [List.get_eq_getElem] using this

theorem sortedNat_getElem_inj {l : List Nat} (hs : List.Pairwise (· < ·) l) {i j : Nat}
    (hi : i < l.length) (hj : j < l.length) (h : l[i] = l[j]) : i = j := by
  rcases Nat.lt_trichotomy i j with hij | hij | hij
  · have := sortedNat_getElem_lt hs hi hj hij
    omega
  · exact hij
  · have := sortedNat_getElem_lt hs hj hi hij
    omega

theorem obj_find_loop_member (o : ObjectRef) (keys : List Nat)
    (hgetid : ∀ (j : Nat) (hj : j < keys.length), o.get_field_id j = keys[j])
    (hs : List.Pairwise (· < ·) keys)
    (idx : Nat) (hidx : idx < keys.length)
    (v : List Nat) (hv : o.get_value idx = RRes.ok v) :
    ∀ fuel left right, left ≤ idx → idx < right → right ≤ keys.length →
      right - left < fuel →
      o.find_loop keys[idx] fuel left right = RRes.ok (some v) := by
  intro fuel
  induction fuel with
  | zero => intro left right h1 h2 h3 h4; omega
  | succ fl ih =>
    intro left right h1 h2 h3 h4
    rw [ObjectRef.find_loop]
    rw [if_pos (by omega : left < right)]
    have hmid : left + (right - left) / 2 < keys.length := by omega
    have hgot := hgetid (left + (right - left) / 2) hmid
    simp only [hgot]
    by_cases heq : keys[left + (right - left) / 2] = keys[idx]
    · rw [if_pos heq]
      have heqidx : left + (right - left) / 2 = idx :=
        sortedNat_getElem_inj hs hmid hidx heq
      rw [heqidx, hv]
    · rw [if_neg heq]
      by_cases hlt : keys[left + (right - left) / 2] < keys[idx]
      · rw [if_pos hlt]
        have hmidx : left + (right - left) / 2 < idx := by
          rcases Nat.lt_trichotomy (left + (right - left) / 2) idx with h | h | h
          · exact h
          · exact absurd (by subst h; rfl) heq
          · exfalso
            have := sortedNat_getElem_lt hs hidx hmid h
            omega
        exact ih (left + (right - left) / 2 + 1) right (by omega) h2 h3 (by omega)
      · rw [if_neg hlt]
        have hmidx : idx < left + (right - left) / 2 := by
          rcases Nat.lt_trichotomy idx (left + (right - left) / 2) with h | h | h
          · exact h
          · exact absurd (by subst h; rfl) heq
          · exfalso
            have := sortedNat_getElem_lt hs hmid hidx h
            omega
        exact ih left (left + (right - left) / 2) h1 hmidx (by omega) (by omega)

theorem maxid_small (ids : List Nat) (n : Nat) (hn : n < 2 ^ 31)
    (hagree : get_offset_size (ids.foldr max 0) = get_offset_size n) :
    ids.foldr max 0 ≤ 2 ^ 31 - 1 := by
  by_contra h
  push_neg at h
  have h8 : get_offset_size (ids.foldr max 0) = 8 := by
    unfold get_offset_size determine_byte_width
    rw [if_neg (by omega), if_neg (by omega), if_neg (by omega)]
  have := gos_small_cases hn
  rw [hagree] at h8
  omega

theorem offsetsFrom_mem_le (acc : Nat) (vs : List (List Nat)) (x : Nat)
    (hx : x ∈ offsetsFrom acc vs) : x ≤ acc + sumLen vs := by
  induction vs generalizing acc with
  | nil => simp [offsetsFrom] at hx
  | cons v rest ih =>
    rw [offsetsFrom_cons] at hx
    rcases List.mem_cons.mp hx with rfl | hx2
    · omega
    · have := ih (acc + v.length) hx2
      rw [sumLen_cons]
      omega

theorem sortPairs_zip_length (pairs : List (List Nat × List Nat)) (ids : List Nat)
    (hlen : ids.length = pairs.length) :
    (sortPairs (ids.zip (offsetsFrom 0 (pairs.map Prod.snd)))).length = pairs.length := by
  rw [(sortPairs_perm _).length_eq, List.length_zip, offsetsFrom_length, List.length_map]
  omega

theorem objParsed_get_field_id (pairs : List (List Nat × List Nat)) (ids : List Nat)
    (hlen : ids.length = pairs.length) (hn : pairs.length < 2 ^ 31)
    (hagree : get_offset_size (ids.foldr max 0) = get_offset_size pairs.length)
    (j : Nat)
    (hj : j < (sortPairs (ids.zip (offsetsFrom 0 (pairs.map Prod.snd)))).length) :
    (objParsed pairs ids).get_field_id j =
      (sortPairs (ids.zip (offsetsFrom 0 (pairs.map Prod.snd))))[j].1 := by
  simp only [objParsed, ObjectRef.get_field_id]
  rw [← hagree]
  have hb : ∀ p ∈ sortPairs (ids.zip (offsetsFrom 0 (pairs.map Prod.snd))),
      p.1 < 2 ^ (8 * get_offset_size (ids.foldr max 0)) := by
    intro p hp
    have hpz := (sortPairs_perm _).mem_iff.mp hp
    have hfst : p.1 ∈ ids := by
      obtain ⟨a, b⟩ := p
      exact (List.mem_zip hpz).1
    have h1 : p.1 ≤ ids.foldr max 0 := mem_le_foldr_max ids p.1 hfst
    have h2 : ids.foldr max 0 ≤ signedMax (get_offset_size (ids.foldr max 0)) := by
      have := maxid_small ids pairs.length hn hagree
      exact le_signedMax_determine (by omega)
    have h3 := signedMax_lt_pow
      (show 0 < get_offset_size (ids.foldr max 0) from determine_byte_width_pos _)
    omega
  have := flatMap_read (get_offset_size (ids.foldr max 0)) Prod.fst
    (sortPairs (ids.zip (offsetsFrom 0 (pairs.map Prod.snd)))) [] j hj hb
  rw [List.append_nil] at this
  exact this

theorem objParsed_get_offset_lt (pairs : List (List Nat × List Nat)) (ids : List Nat)
    (hF : sumLen (pairs.map Prod.snd) < 2 ^ 31)
    (j : Nat)
    (hj : j < (sortPairs (ids.zip (offsetsFrom 0 (pairs.map Prod.snd)))).length) :
    (objParsed pairs ids).get_offset j =
      (sortPairs (ids.zip (offsetsFrom 0 (pairs.map Prod.snd))))[j].2 := by
  simp only [objParsed, ObjectRef.get_offset]
  have hb : ∀ p ∈ sortPairs (ids.zip (offsetsFrom 0 (pairs.map Prod.snd))),
      p.2 < 2 ^ (8 * get_offset_size (sumLen (pairs.map Prod.snd))) := by
    intro p hp
    have hpz := (sortPairs_perm _).mem_iff.mp hp
    have hsnd : p.2 ∈ offsetsFrom 0 (pairs.map Prod.snd) := by
      obtain ⟨a, b⟩ := p
      exact (List.mem_zip hpz).2
    have h1 := offsetsFrom_mem_le 0 (pairs.map Prod.snd) p.2 hsnd
    have h2 : sumLen (pairs.map Prod.snd) ≤
        signedMax (get_offset_size (sumLen (pairs.map Prod.snd))) :=
      le_signedMax_determine (by omega)
    have h3 := signedMax_lt_pow
      (show 0 < get_offset_size (sumLen (pairs.map Prod.snd)) from determine_byte_width_pos _)
    omega
  exact flatMap_read _ Prod.snd _ _ j hj hb

theorem objParsed_get_offset_final (pairs : List (List Nat × List Nat)) (ids : List Nat)
    (hlen : ids.length = pairs.length)
    (hF : sumLen (pairs.map Prod.snd) < 2 ^ 31) :
    (objParsed pairs ids).get_offset pairs.length = sumLen (pairs.map Prod.snd) := by
  simp only [objParsed, ObjectRef.get_offset]
  have hpos : pairs.length * get_offset_size (sumLen (pairs.map Prod.snd)) =
      ((sortPairs (ids.zip (offsetsFrom 0 (pairs.map Prod.snd)))).flatMap
        (fun p => natToLE (get_offset_size (sumLen (pairs.map Prod.snd))) p.2)).length + 0 := by
    rw [flatMap_natToLE_length, sortPairs_zip_length pairs ids hlen]
    omega
  rw [hpos, read_le_append]
  rw [read_le, List.drop_zero, take_exact _ _ (natToLE_length _ _), leToNat_natToLE]
  have h2 : sumLen (pairs.map Prod.snd) ≤
      signedMax (get_offset_size (sumLen (pairs.map Prod.snd))) :=
    le_signedMax_determine (by omega)
  have h3 := signedMax_lt_pow
    (show 0 < get_offset_size (sumLen (pairs.map Prod.snd)) from determine_byte_width_pos _)
  exact Nat.mod_eq_of_lt (by omega)

theorem objParsed_get_value (pairs : List (List Nat × List Nat)) (ids : List Nat)
    (hlen : ids.length = pairs.length)
    (hF : sumLen (pairs.map Prod.snd) < 2 ^ 31)
    (j : Nat)
    (hj : j < (sortPairs (ids.zip (offsetsFrom 0 (pairs.map Prod.snd)))).length) :
    (objParsed pairs ids).get_value j = RRes.ok
      ((pairs.map Prod.snd).flatten.drop
        ((sortPairs (ids.zip (offsetsFrom 0 (pairs.map Prod.snd))))[j].2)) := by
  rw [ObjectRef.get_value]
  have hlen2 : (objParsed pairs ids).len = pairs.length := rfl
  rw [hlen2, objParsed_get_offset_lt pairs ids hF j hj,
    objParsed_get_offset_final pairs ids hlen hF]
  have hoffle : (sortPairs (ids.zip (offsetsFrom 0 (pairs.map Prod.snd))))[j].2 ≤
      sumLen (pairs.map Prod.snd) := by
    have hpz := (sortPairs_perm _).mem_iff.mp
      (List.getElem_mem (l := sortPairs (ids.zip (offsetsFrom 0 (pairs.map Prod.snd))))
        (n := j) hj)
    have hsnd : (sortPairs (ids.zip (offsetsFrom 0 (pairs.map Prod.snd))))[j].2 ∈
        offsetsFrom 0 (pairs.map Prod.snd) := (List.of_mem_zip hpz).2
    have := offsetsFrom_mem_le 0 (pairs.map Prod.snd) _ hsnd
    omega
  have hvals : (objParsed pairs ids).values = (pairs.map Prod.snd).flatten := rfl
  rw [hvals, slice?,
    if_pos ⟨hoffle, by rw [flatten_length_sumLen]⟩]
  rw [take_exact _ _ (by rw [List.length_drop, flatten_length_sumLen])]

theorem flatten_drop (l : List (List Nat)) (i : Nat) (hi : i < l.length) :
    l.flatten.drop (sumLen (l.take i)) = l[i] ++ (l.drop (i + 1)).flatten := by
  have h1 : l = l.take i ++ (l[i] :: l.drop (i + 1)) := by
    conv =>
      lhs
      rw [← List.take_append_drop i l]
    rw [List.drop_eq_getElem_cons hi]
  calc l.flatten.drop (sumLen (l.take i))
      = (l.take i ++ (l[i] :: l.drop (i + 1))).flatten.drop (sumLen (l.take i)) := by
        rw [← h1]
    _ = ((l.take i).flatten ++ (l[i] ++ (l.drop (i + 1)).flatten)).drop
        (sumLen (l.take i)) := by rw [List.flatten_append, List.flatten_cons]
    _ = l[i] ++ (l.drop (i + 1)).flatten :=
        drop_enc_left _ _ _ (by rw [flatten_length_sumLen])

theorem zip_fst_nodup (ids : List Nat) (pairs : List (List Nat × List Nat))
    (hlen : ids.length = pairs.length) (hnodup : ids.Nodup) :
    ((ids.zip (offsetsFrom 0 (pairs.map Prod.snd))).map Prod.fst).Nodup := by
  rw [List.map_fst_zip]
  · exact hnodup
  · rw [offsetsFrom_length, List.length_map]
    omega

theorem objParsed_storedFieldIds (pairs : List (List Nat × List Nat)) (ids : List Nat)
    (hlen : ids.length = pairs.length) (hn : pairs.length < 2 ^ 31)
    (hagree : get_offset_size (ids.foldr max 0) = get_offset_size pairs.length) :
    (objParsed pairs ids).storedFieldIds =
      (sortPairs (ids.zip (offsetsFrom 0 (pairs.map Prod.snd)))).map Prod.fst := by
  have hsl := sortPairs_zip_length pairs ids hlen
  apply List.ext_getElem
  · simp only [ObjectRef.storedFieldIds, List.length_map, List.length_range]
    rw [hsl]
    rfl
  · intro j h1 h2
    simp only [ObjectRef.storedFieldIds, List.length_map, List.length_range] at h1
    have hlen2 : (objParsed pairs ids).len = pairs.length := rfl
    rw [hlen2] at h1
    simp only [ObjectRef.storedFieldIds, List.getElem_map, List.getElem_range]
    exact objParsed_get_field_id pairs ids hlen hn hagree j (by omega)

theorem objParsed_get_field (pairs : List (List Nat × List Nat)) (ids : List Nat)
    (hlen : ids.length = pairs.length) (hnodup : ids.Nodup)
    (hn : pairs.length < 2 ^ 31) (hF : sumLen (pairs.map Prod.snd) < 2 ^ 31)
    (hagree : get_offset_size (ids.foldr max 0) = get_offset_size pairs.length)
    (i : Nat) (hi : i < pairs.length) (hi2 : i < ids.length) :
    (objParsed pairs ids).get_field ids[i] =
      RRes.ok (some (pairs[i].2 ++ ((pairs.map Prod.snd).drop (i + 1)).flatten)) := by
  have hsl := sortPairs_zip_length pairs ids hlen
  have hofl : (offsetsFrom 0 (pairs.map Prod.snd)).length = pairs.length := by
    rw [offsetsFrom_length, List.length_map]
  have hzl : (ids.zip (offsetsFrom 0 (pairs.map Prod.snd))).length = pairs.length := by
    rw [List.length_zip, hofl]
    omega
  have hizip : i < (ids.zip (offsetsFrom 0 (pairs.map Prod.snd))).length := by omega
  have hioff : i < (offsetsFrom 0 (pairs.map Prod.snd)).length := by omega
  have hzi : (ids.zip (offsetsFrom 0 (pairs.map Prod.snd)))[i] =
      (ids[i], (offsetsFrom 0 (pairs.map Prod.snd))[i]) :=
    List.getElem_zip
  have hmem : (ids[i], (offsetsFrom 0 (pairs.map Prod.snd))[i]) ∈
      sortPairs (ids.zip (offsetsFrom 0 (pairs.map Prod.snd))) :=
    (sortPairs_perm _).mem_iff.mpr (hzi ▸ List.getElem_mem hizip)
  obtain ⟨j, hj, hjeq⟩ := List.getElem_of_mem hmem
  have hstrict := sortPairs_strict (ids.zip (offsetsFrom 0 (pairs.map Prod.snd)))
    (zip_fst_nodup ids pairs hlen hnodup)
  have hkeys : List.Pairwise (· < ·)
      ((sortPairs (ids.zip (offsetsFrom 0 (pairs.map Prod.snd)))).map Prod.fst) :=
    List.pairwise_map.mpr hstrict
  have hjk : j < ((sortPairs (ids.zip (offsetsFrom 0 (pairs.map Prod.snd)))).map
      Prod.fst).length := by
    rw [List.length_map]
    exact hj
  have hgetid : ∀ (m : Nat)
      (hm : m < ((sortPairs (ids.zip (offsetsFrom 0 (pairs.map Prod.snd)))).map
        Prod.fst).length),
      (objParsed pairs ids).get_field_id m =
        ((sortPairs (ids.zip (offsetsFrom 0 (pairs.map Prod.snd)))).map Prod.fst)[m] := by
    intro m hm
    rw [List.getElem_map]
    exact objParsed_get_field_id pairs ids hlen hn hagree m
      (by rw [List.length_map] at hm; exact hm)
  have hv := objParsed_get_value pairs ids hlen hF j hj
  have hrun := obj_find_loop_member (objParsed pairs ids)
    ((sortPairs (ids.zip (offsetsFrom 0 (pairs.map Prod.snd)))).map Prod.fst)
    hgetid hkeys j hjk _ hv
    (pairs.length + 2) 0 pairs.length (by omega) (by omega)
    (by rw [List.length_map, hsl]) (by omega)
  have hkey : ((sortPairs (ids.zip (offsetsFrom 0 (pairs.map Prod.snd)))).map
      Prod.fst)[j] = ids[i] := by
    rw [List.getElem_map, hjeq]
  rw [hkey] at hrun
  have hget : (objParsed pairs ids).get_field ids[i] =
      (objParsed pairs ids).find_loop ids[i] (pairs.length + 2) 0 pairs.length := rfl
  rw [hget, hrun]
  have hoff : (sortPairs (ids.zip (offsetsFrom 0 (pairs.map Prod.snd))))[j].2 =
      sumLen ((pairs.map Prod.snd).take i) := by
    rw [hjeq]
    have := offsetsFrom_getElem 0 (pairs.map Prod.snd) i
      (by rw [List.length_map]; omega) hioff
    omega
  rw [hoff, flatten_drop (pairs.map Prod.snd) i (by rw [List.length_map]; omega)]
  rw [List.getElem_map]

/-- C2: the object round-trip claim is false as stated: `get_field` returns the
trailing slice from the field's start to the end of the value region, not the
field's own bytes.  Concretely, for dictionary `{"a","b"}` and pairs
`("a",[4]), ("b",[8])`, building the object and reading field id 0 (the id
`find_string "a"` returns) yields `[4, 8]`, not `[4]`. -/
theorem C2_counterexample_trailing_slice :
    (MetadataRef.new (build_metadata [[97], [98]])).find_string [97] =
        RRes.ok (some 0) ∧
      (match buildObject (MetadataRef.new (build_metadata [[97], [98]]))
          [([97], [4]), ([98], [8])] with
        | RRes.ok bytes =>
          match ObjectRef.try_new bytes with
          | RRes.ok o => o.get_field 0
          | _ => RRes.err
        | _ => RRes.err) = RRes.ok (some [4, 8]) ∧
      ([4, 8] : List Nat) ≠ [4] := by
  refine ⟨by decide, by decide, by decide⟩

/-- C2: amended round-trip for `ObjectBuilder` + `ObjectRef::get_field`.
For pairs whose keys resolve (via `find_string`) to distinct field ids, with
fewer than `2^31` fields, total payload under `2^31` bytes, and the field-id
byte width chosen from the maximal id agreeing with the width the header
records (which is chosen from the field count), the built buffer opens
successfully, the stored field ids are strictly ascending in stored order, and
`get_field` at each key's id returns `Some` of the field's bytes followed by
the remaining (later) fields' bytes — a slice that begins with `v_i` rather
than equalling it. -/
theorem C2_amended_object_roundtrip (meta : MetadataRef)
    (pairs : List (List Nat × List Nat)) (ids : List Nat)
    (hlen : ids.length = pairs.length)
    (hres : ∀ (i : Nat) (hi : i < pairs.length) (hi2 : i < ids.length),
      meta.find_string (pairs[i].1) = RRes.ok (some ids[i]))
    (hnodup : ids.Nodup)
    (hn : pairs.length < 2 ^ 31) (hF : sumLen (pairs.map Prod.snd) < 2 ^ 31)
    (hagree : get_offset_size (ids.foldr max 0) = get_offset_size pairs.length) :
    buildObject meta pairs = RRes.ok (objBytes pairs ids) ∧
      ObjectRef.try_new (objBytes pairs ids) = RRes.ok (objParsed pairs ids) ∧
      List.Pairwise (· < ·) (objParsed pairs ids).storedFieldIds ∧
      ∀ (i : Nat) (hi : i < pairs.length) (hi2 : i < ids.length),
        (objParsed pairs ids).get_field ids[i] =
          RRes.ok (some (pairs[i].2 ++ ((pairs.map Prod.snd).drop (i + 1)).flatten)) := by
  refine ⟨buildObject_ok meta pairs ids hlen hres hn hF,
    object_parse pairs ids hlen hn hF hagree, ?_, ?_⟩
  · rw [objParsed_storedFieldIds pairs ids hlen hn hagree]
    exact List.pairwise_map.mpr (sortPairs_strict _ (zip_fst_nodup ids pairs hlen hnodup))
  · intro i hi hi2
    exact objParsed_get_field pairs ids hlen hnodup hn hF hagree i hi hi2

/-- Witness for C2: dictionary `{"a","b"}`, pairs `("a",[4]), ("b",[8])`,
ids `[0,1]`.  Both fields read back as their own bytes followed by the later
fields' bytes, and the stored ids `[0,1]` are strictly ascending. -/
theorem C2_amended_object_roundtrip_witness :
    ([0, 1] : List Nat).Nodup ∧
      (buildObject (MetadataRef.new (build_metadata [[97], [98]]))
          [([97], [4]), ([98], [8])] =
        RRes.ok (objBytes [([97], [4]), ([98], [8])] [0, 1]) ∧
      ObjectRef.try_new (objBytes [([97], [4]), ([98], [8])] [0, 1]) =
        RRes.ok (objParsed [([97], [4]), ([98], [8])] [0, 1]) ∧
      List.Pairwise (· < ·) (objParsed [([97], [4]), ([98], [8])] [0, 1]).storedFieldIds ∧
      ∀ (i : Nat) (hi : i < ([([97], [4]), ([98], [8])] :
          List (List Nat × List Nat)).length) (hi2 : i < ([0, 1] : List Nat).length),
        (objParsed [([97], [4]), ([98], [8])] [0, 1]).get_field ([0, 1] : List Nat)[i] =
          RRes.ok (some (([([97], [4]), ([98], [8])] :
              List (List Nat × List Nat))[i].2 ++
            ((([([97], [4]), ([98], [8])] : List (List Nat × List Nat)).map
              Prod.snd).drop (i + 1)).flatten))) :=
  ⟨by decide,
    C2_amended_object_roundtrip (MetadataRef.new (build_metadata [[97], [98]]))
      [([97], [4]), ([98], [8])] [0, 1] (by decide)
      (by
        intro i hi hi2
        simp only [List.length_cons, List.length_nil] at hi
        interval_cases i
        · rfl
        · rfl)
      (by decide) (by decide) (by decide) (by decide)⟩

theorem getD_zero_headD (valids : List Bool) : valids.getD 0 true = valids.headD true := by
  cases valids <;> rfl

theorem getD_succ_tail (valids : List Bool) (i : Nat) :
    valids.tail.getD i true = valids.getD (i + 1) true := by
  cases valids <;> rfl

theorem values_from_json_spec (meta : MetadataRef) (jsons : List Json)
    (valids : List Bool) (out : List (Option (List Nat)))
    (h : values_from_json meta jsons valids = RRes.ok out) :
    out.length = jsons.length ∧
    ∀ (i : Nat) (hi : i < jsons.length) (hio : i < out.length),
      (valids.getD i true = false → out[i] = none) ∧
      (valids.getD i true = true →
        ∃ bytes, convert_value meta jsons[i] [] = RRes.ok bytes ∧
          out[i] = if bytes = [0] then none else some bytes) := by
  induction jsons generalizing valids out with
  | nil =>
    simp only [values_from_json] at h
    injection h with h2
    subst h2
    exact ⟨rfl, fun i hi => absurd hi (by simp)⟩
  | cons j rest ih =>
    simp only [values_from_json] at h
    split at h
    next hv =>
      cases hcv : convert_value meta j [] with
      | ok bytes =>
        rw [hcv] at h
        cases hrec : values_from_json meta rest valids.tail with
        | ok tailOut =>
          rw [hrec] at h
          injection h with h2
          subst h2
          obtain ⟨ihl, ihs⟩ := ih valids.tail tailOut hrec
          refine ⟨by simp [ihl], ?_⟩
          intro i hi hio
          cases i with
          | zero =>
            constructor
            · intro hfalse
              rw [getD_zero_headD] at hfalse
              exact absurd (hv.symm.trans hfalse) (by simp)
            · intro _
              exact ⟨bytes, hcv, rfl⟩
          | succ m =>
            have h1 : m < rest.length := by
              simpa using hi
            have h2 : m < tailOut.length := by
              simpa using hio
            have hm := ihs m h1 h2
            constructor
            · intro hfalse
              rw [← getD_succ_tail] at hfalse
              rw [List.getElem_cons_succ]
              exact hm.1 hfalse
            · intro htrue
              rw [← getD_succ_tail] at htrue
              obtain ⟨b2, hb2, hout⟩ := hm.2 htrue
              refine ⟨b2, ?_, ?_⟩
              · rw [List.getElem_cons_succ]
                exact hb2
              · rw [List.getElem_cons_succ]
                exact hout
        | err => rw [hrec] at h; exact absurd h (by simp)
        | panicked => rw [hrec] at h; exact absurd h (by simp)
        | fuelOut => rw [hrec] at h; exact absurd h (by simp)
      | err => rw [hcv] at h; exact absurd h (by simp)
      | panicked => rw [hcv] at h; exact absurd h (by simp)
      | fuelOut => rw [hcv] at h; exact absurd h (by simp)
    next hv =>
      cases hrec : values_from_json meta rest valids.tail with
      | ok tailOut =>
        rw [hrec] at h
        injection h with h2
        subst h2
        obtain ⟨ihl, ihs⟩ := ih valids.tail tailOut hrec
        refine ⟨by simp [ihl], ?_⟩
        intro i hi hio
        cases i with
        | zero =>
          constructor
          · intro _
            rfl
          · intro htrue
            rw [getD_zero_headD] at htrue
            exact absurd htrue hv
        | succ m =>
          have h1 : m < rest.length := by
            simpa using hi
          have h2 : m < tailOut.length := by
            simpa using hio
          have hm := ihs m h1 h2
          constructor
          · intro hfalse
            rw [← getD_succ_tail] at hfalse
            rw [List.getElem_cons_succ]
            exact hm.1 hfalse
          · intro htrue
            rw [← getD_succ_tail] at htrue
            obtain ⟨b2, hb2, hout⟩ := hm.2 htrue
            refine ⟨b2, ?_, ?_⟩
            · rw [List.getElem_cons_succ]
              exact hb2
            · rw [List.getElem_cons_succ]
              exact hout
      | err => rw [hrec] at h; exact absurd h (by simp)
      | panicked => rw [hrec] at h; exact absurd h (by simp)
      | fuelOut => rw [hrec] at h; exact absurd h (by simp)

/-- C7: null placement in `values_from_json` / `convert_value`.  A nested
JSON null is encoded as the single Null-primitive byte `0` appended to its
container's scratch buffer (for both array and object containers); for each
row of `values_from_json`, an invalid input row yields a null entry, a valid
row yields a null entry exactly when its converted bytes are `[0]` (otherwise
the bytes themselves), and in particular a valid top-level JSON null row
yields a null entry. -/
theorem C7_null_placement (meta : MetadataRef) (jsons : List Json)
    (valids : List Bool) (out : List (Option (List Nat)))
    (h : values_from_json meta jsons valids = RRes.ok out) :
    convert_value meta Json.null [] = RRes.ok [0] ∧
    (∀ (rest : List Json) (b : ArrayBuilder),
      convert_array meta (Json.null :: rest) b =
        convert_array meta rest (b.append_value [0])) ∧
    (∀ (k : List Nat) (rest : List (List Nat × Json)) (b b2 : ObjectBuilder),
      b.append_value meta k [0] = RRes.ok b2 →
      convert_object meta ((k, Json.null) :: rest) b = convert_object meta rest b2) ∧
    out.length = jsons.length ∧
    (∀ (i : Nat) (hi : i < jsons.length) (hio : i < out.length),
      (valids.getD i true = false → out[i] = none) ∧
      (valids.getD i true = true →
        ∃ bytes, convert_value meta jsons[i] [] = RRes.ok bytes ∧
          out[i] = if bytes = [0] then none else some bytes) ∧
      (jsons[i] = Json.null → out[i] = none)) := by
  obtain ⟨hl, hs⟩ := values_from_json_spec meta jsons valids out h
  refine ⟨rfl, fun rest b => rfl, ?_, hl, ?_⟩
  · intro k rest b b2 hap
    show (match ObjectBuilder.append_value meta b k [0] with
      | RRes.ok b3 => convert_object meta rest b3
      | RRes.err => RRes.err
      | RRes.panicked => RRes.panicked
      | RRes.fuelOut => RRes.fuelOut) = convert_object meta rest b2
    rw [hap]
  · intro i hi hio
    obtain ⟨hinv, hval⟩ := hs i hi hio
    refine ⟨hinv, hval, ?_⟩
    intro hnull
    cases hvi : valids.getD i true with
    | false => exact hinv hvi
    | true =>
      obtain ⟨bytes, hb, hout⟩ := hval hvi
      rw [hnull] at hb
      have hb0 : bytes = [0] := by
        have : RRes.ok (write_null []) = RRes.ok bytes := hb
        injection this with h3
        exact h3.symm
      rw [hout, if_pos hb0]

/-- Witness for C7: the empty dictionary, a single top-level null row with no
null buffer; the output is a single null entry. -/
theorem C7_null_placement_witness :
    values_from_json (MetadataRef.new (build_metadata [])) [Json.null] [] =
        RRes.ok [none] ∧
      (convert_value (MetadataRef.new (build_metadata [])) Json.null [] = RRes.ok [0] ∧
      (∀ (rest : List Json) (b : ArrayBuilder),
        convert_array (MetadataRef.new (build_metadata [])) (Json.null :: rest) b =
          convert_array (MetadataRef.new (build_metadata [])) rest (b.append_value [0])) ∧
      (∀ (k : List Nat) (rest : List (List Nat × Json)) (b b2 : ObjectBuilder),
        b.append_value (MetadataRef.new (build_metadata [])) k [0] = RRes.ok b2 →
        convert_object (MetadataRef.new (build_metadata [])) ((k, Json.null) :: rest) b =
          convert_object (MetadataRef.new (build_metadata [])) rest b2) ∧
      ([(none : Option (List Nat))] : List (Option (List Nat))).length =
        ([Json.null] : List Json).length ∧
      (∀ (i : Nat) (hi : i < ([Json.null] : List Json).length)
          (hio : i < ([(none : Option (List Nat))] : List (Option (List Nat))).length),
        (([] : List Bool).getD i true = false →
          ([(none : Option (List Nat))] : List (Option (List Nat)))[i] = none) ∧
        (([] : List Bool).getD i true = true →
          ∃ bytes, convert_value (MetadataRef.new (build_metadata []))
              ([Json.null] : List Json)[i] [] = RRes.ok bytes ∧
            ([(none : Option (List Nat))] : List (Option (List Nat)))[i] =
              if bytes = [0] then none else some bytes) ∧
        (([Json.null] : List Json)[i] = Json.null →
          ([(none : Option (List Nat))] : List (Option (List Nat)))[i] = none))) :=
  ⟨by decide,
    C7_null_placement (MetadataRef.new (build_metadata [])) [Json.null] [] [none]
      (by decide)⟩

end OpenVariant
